import Mathlib

/-!
Verification of the Pea package manager core against its specification.

This file shallowly embeds the Rust sources of the `pea` workspace
(`pea-core`, `pea-resolver`, `pea-cache`) into Lean 4 and proves or refutes
the frozen claims about them.  Byte strings are `List Nat`, Rust strings are
`List Char` where parsing matters and `String` elsewhere, filesystem paths are
lists of components, and stateful operations are explicit state passing.
Machine integers (`u64`) are `Nat` with explicit bounds where Rust would
overflow-check.  External crates (blake3, petgraph's `toposort`) are modelled
by their documented contract; formatted error-message payloads are elided and
errors are modelled by their kind.
-/

set_option maxHeartbeats 1000000

namespace Pea

/-! ## Version model (pea-core/src/types/version.rs)

`Version` mirrors the Rust struct: major/minor/patch are `u64` (here `Nat`;
parsing enforces the `u64` bound), with optional prerelease and build strings
modelled as `List Char`. -/

structure Version where
  major : Nat
  minor : Nat
  patch : Nat
  prerelease : Option (List Char)
  build : Option (List Char)
  deriving DecidableEq, Repr

/-- Version parsing errors, mirroring `VersionError`; the payload carries the
offending characters, the formatted message is elided. -/
inductive VersionError where
  | invalidFormat (input : List Char)
  | invalidNumber (component : List Char)
  deriving DecidableEq, Repr

/-- Comparison of naturals, mirroring Rust's `Ord for u64`. -/
def cmpNat (a b : Nat) : Ordering :=
  if a < b then .lt else if a = b then .eq else .gt

/-- Lexicographic comparison of char lists, mirroring Rust's `Ord for String`
(byte-wise lexicographic; UTF-8 byte order agrees with codepoint order). -/
def cmpList : List Char → List Char → Ordering
  | [], [] => .eq
  | [], _ :: _ => .lt
  | _ :: _, [] => .gt
  | a :: as, b :: bs => (cmpNat a.toNat b.toNat).then (cmpList as bs)

/-- Prerelease comparison from `Version::precedence_cmp`:
`(Some _, None) => Less` (prerelease < normal), `(None, Some _) => Greater`,
`(Some a, Some b) => a.cmp(b)` (lexical). -/
def cmpPre : Option (List Char) → Option (List Char) → Ordering
  | none, none => .eq
  | some _, none => .lt
  | none, some _ => .gt
  | some a, some b => cmpList a b

/-- `Version::precedence_cmp`: lexicographic on `(major, minor, patch)`, then
the prerelease rule.  Build metadata is ignored.  This is also `Ord for
Version` (`cmp` delegates to `precedence_cmp`). -/
def Version.precedenceCmp (v1 v2 : Version) : Ordering :=
  ((cmpNat v1.major v2.major).then
    ((cmpNat v1.minor v2.minor).then (cmpNat v1.patch v2.patch))).then
    (cmpPre v1.prerelease v2.prerelease)

/-! ### Parsing (`impl FromStr for Version`) -/

/-- Rust's `str::split_once`: split at the first occurrence of `c`. -/
def splitOnce (c : Char) : List Char → Option (List Char × List Char)
  | [] => none
  | x :: xs =>
      if x = c then some ([], xs)
      else
        match splitOnce c xs with
        | none => none
        | some (a, b) => some (x :: a, b)

/-- Rust's `str::split(c).collect()`: always at least one piece. -/
def splitAll (c : Char) : List Char → List (List Char)
  | [] => [[]]
  | x :: xs =>
      if x = c then [] :: splitAll c xs
      else
        match splitAll c xs with
        | [] => [[x]]
        | p :: ps => (x :: p) :: ps

/-- Numeric value of a digit string, most significant first. -/
def digitsVal (s : List Char) : Nat :=
  s.foldl (fun acc c => acc * 10 + (c.toNat - 48)) 0

/-- The `u64` range bound used by Rust's overflow check. -/
def u64Bound : Nat := 2 ^ 64

/-- Digit-string part of `u64::from_str`: one or more ASCII digits, overflow
beyond `u64::MAX` is an error. -/
def parseDigits (t : List Char) : Option Nat :=
  if !t.isEmpty && t.all Char.isDigit then
    if digitsVal t < u64Bound then some (digitsVal t) else none
  else none

/-- Rust's `u64::from_str`: an optional leading `+` sign, then digits. -/
def parseU64 (s : List Char) : Option Nat :=
  parseDigits (if s.head? = some '+' then s.tail else s)

/-- Rust's `str::trim` (per-char whitespace from both ends). -/
def trimList (s : List Char) : List Char :=
  ((s.dropWhile Char.isWhitespace).reverse.dropWhile Char.isWhitespace).reverse

/-- Split on `+` for build metadata: `input.split_once('+')`. -/
def buildSplit (input : List Char) : List Char × Option (List Char) :=
  match splitOnce '+' input with
  | some (v, b) => (v, some b)
  | none => (input, none)

/-- Split on `-` for prerelease: `version_part.split_once('-')`. -/
def preSplit (vp : List Char) : List Char × Option (List Char) :=
  match splitOnce '-' vp with
  | some (c, p) => (c, some p)
  | none => (vp, none)

/-- Parse `major.minor.patch` from the core part; exactly three parts are
required (`InvalidFormat` otherwise), each a valid `u64` (`InvalidNumber`). -/
def parseCore (core input : List Char) (pre build : Option (List Char)) :
    Except VersionError Version :=
  match splitAll '.' core with
  | [p0, p1, p2] =>
      match parseU64 p0 with
      | none => .error (.invalidNumber p0)
      | some major =>
          match parseU64 p1 with
          | none => .error (.invalidNumber p1)
          | some minor =>
              match parseU64 p2 with
              | none => .error (.invalidNumber p2)
              | some patch => .ok ⟨major, minor, patch, pre, build⟩
  | _ => .error (.invalidFormat input)

/-- `Version::from_str`: trim, split build on the first `+`, split prerelease
on the first `-`, split the core on `.` into exactly three numeric parts. -/
def Version.parse (s : List Char) : Except VersionError Version :=
  parseCore (preSplit (buildSplit (trimList s)).1).1 (trimList s)
    (preSplit (buildSplit (trimList s)).1).2 (buildSplit (trimList s)).2

/-! ### Display (`impl Display for Version`) -/

/-- Decimal digit character. -/
def digitChar (d : Nat) : Char := Char.ofNat (48 + d)

/-- Decimal rendering of a natural, as Rust's `Display for u64`. -/
def natToDec (n : Nat) : List Char :=
  if n = 0 then ['0'] else (Nat.digits 10 n).reverse.map digitChar

/-- Optional prerelease rendering: `-pre` when present. -/
def optDash : Option (List Char) → List Char
  | some p => '-' :: p
  | none => []

/-- Optional build rendering: `+build` when present. -/
def optPlus : Option (List Char) → List Char
  | some b => '+' :: b
  | none => []

/-- The `M.m.p` core of the display form. -/
def coreChars (v : Version) : List Char :=
  natToDec v.major ++ '.' :: (natToDec v.minor ++ '.' :: natToDec v.patch)

/-- `Display for Version`: `M.m.p[-pre][+build]`. -/
def Version.toChars (v : Version) : List Char :=
  coreChars v ++ optDash v.prerelease ++ optPlus v.build

instance {ε α : Type} [DecidableEq ε] [DecidableEq α] : DecidableEq (Except ε α) := by
  intro x y
  cases x <;> cases y
  case error.error a b =>
    exact if h : a = b then .isTrue (by rw [h]) else .isFalse (by simp [h])
  case error.ok a b => exact .isFalse (by simp)
  case ok.error a b => exact .isFalse (by simp)
  case ok.ok a b =>
    exact if h : a = b then .isTrue (by rw [h]) else .isFalse (by simp [h])

/-! ## Version requirements (pea-core/src/types/version.rs) -/

/-- Comparison operators, mirroring `Op`. -/
inductive Op where
  | exact
  | greater
  | greaterEq
  | less
  | lessEq
  | tilde
  | caret
  | wildcard
  deriving DecidableEq, Repr

/-- `PartialVersion`: required major, optional minor/patch/prerelease. -/
structure PartialVersion where
  major : Nat
  minor : Option Nat
  patch : Option Nat
  prerelease : Option (List Char)
  deriving DecidableEq, Repr

/-- A single comparator of a requirement. -/
structure Comparator where
  op : Op
  version : PartialVersion
  deriving DecidableEq, Repr

/-- `VersionReq`: conjunction of comparators. -/
structure VersionReq where
  comparators : List Comparator
  deriving DecidableEq, Repr

/-- `PartialVersion::to_version`: missing parts become `0`. -/
def PartialVersion.toVersion (pv : PartialVersion) : Version :=
  ⟨pv.major, pv.minor.getD 0, pv.patch.getD 0, pv.prerelease, none⟩

/-- `PartialVersion::matches_exact`. -/
def PartialVersion.matchesExact (pv : PartialVersion) (v : Version) : Bool :=
  decide (v.major = pv.major) &&
    (match pv.minor with | some m => decide (v.minor = m) | none => true) &&
    (match pv.patch with | some p => decide (v.patch = p) | none => true) &&
    decide (v.prerelease = pv.prerelease)

/-- `PartialVersion::matches_tilde`. -/
def PartialVersion.matchesTilde (pv : PartialVersion) (v : Version) : Bool :=
  if v.major ≠ pv.major then false
  else
    match pv.minor with
    | some minor => decide (v.minor = minor) && decide (pv.patch.getD 0 ≤ v.patch)
    | none => true

/-- `PartialVersion::matches_caret`: same major and `v ≥ to_version`. -/
def PartialVersion.matchesCaret (pv : PartialVersion) (v : Version) : Bool :=
  if v.major ≠ pv.major then false
  else decide (Version.precedenceCmp v pv.toVersion ≠ .lt)

/-- `Comparator::matches`; the order comparisons use `Ord for Version`,
i.e. `precedence_cmp`. -/
def Comparator.matches (c : Comparator) (v : Version) : Bool :=
  match c.op with
  | .exact => c.version.matchesExact v
  | .wildcard => true
  | .greater => decide (Version.precedenceCmp v c.version.toVersion = .gt)
  | .greaterEq => decide (Version.precedenceCmp v c.version.toVersion ≠ .lt)
  | .less => decide (Version.precedenceCmp v c.version.toVersion = .lt)
  | .lessEq => decide (Version.precedenceCmp v c.version.toVersion ≠ .gt)
  | .tilde => c.version.matchesTilde v
  | .caret => c.version.matchesCaret v

/-- `VersionReq::matches`: every comparator must match. -/
def VersionReq.matches (r : VersionReq) (v : Version) : Bool :=
  r.comparators.all (fun c => c.matches v)

/-! ## Version selector (pea-resolver/src/semver/mod.rs)

`available_versions` is a `BTreeSet<Version>` ordered by `Ord for Version`
(= `precedence_cmp`), modelled as a strictly ascending list.
`BTreeSet::insert` keeps the already-present element when an `Ord`-equal
element is inserted. -/

/-- Ordered-set insertion with keep-first semantics on `Ord`-equal elements. -/
def btreeInsert (v : Version) : List Version → List Version
  | [] => [v]
  | x :: xs =>
      match Version.precedenceCmp v x with
      | .lt => v :: x :: xs
      | .eq => x :: xs
      | .gt => x :: btreeInsert v xs

/-- `VersionSelector`, holding the ascending set contents. -/
structure VersionSelector where
  availableVersions : List Version
  deriving DecidableEq, Repr

/-- `VersionSelector::new`: collect the vector into the ordered set. -/
def VersionSelector.new (versions : List Version) : VersionSelector :=
  ⟨versions.foldl (fun acc v => btreeInsert v acc) []⟩

/-- `find_matching`: filter over the set's ascending iteration order (the
source does not call `.rev()` here). -/
def VersionSelector.findMatching (s : VersionSelector) (req : VersionReq) : List Version :=
  s.availableVersions.filter (fun v => req.matches v)

/-! ## Content-addressable store (pea-cache/src/cas) -/

/-- Error kinds of `PeaError` relevant here; message payloads elided. -/
inductive PeaErrorKind where
  | integrityFailure
  | ioError
  deriving DecidableEq, Repr

/-- `CacheEntry`; timestamps are epoch seconds. -/
structure CacheEntry (κ : Type) where
  hash : κ
  size : Nat
  storedAt : Int
  lastAccessed : Int
  deriving DecidableEq, Repr

/-- In-memory index contents (`DashMap<String, CacheEntry>`); the key is the
content hash (its hex encoding, injective on digests, is elided).  The list
order models the map's unspecified iteration order. -/
abbrev IndexState (κ : Type) := List (κ × CacheEntry κ)

/-- Association-list lookup (first match). -/
def alookup {κ β : Type} [DecidableEq κ] (k : κ) : List (κ × β) → Option β
  | [] => none
  | (k', v) :: rest => if k = k' then some v else alookup k rest

/-- Association-list insert-or-replace (`DashMap::insert`). -/
def aupdate {κ β : Type} [DecidableEq κ] (k : κ) (v : β) : List (κ × β) → List (κ × β)
  | [] => [(k, v)]
  | (k', v') :: rest => if k = k' then (k, v) :: rest else (k', v') :: aupdate k v rest

/-- Association-list removal of the entry under a key. -/
def aremove {κ β : Type} [DecidableEq κ] (k : κ) : List (κ × β) → List (κ × β)
  | [] => []
  | (k', v') :: rest => if k = k' then rest else (k', v') :: aremove k rest

/-- `CasIndex::get`: look the key up, `touch` the clone, re-insert it. -/
def casIndexGet {κ : Type} [DecidableEq κ] (now : Int) (idx : IndexState κ) (k : κ) :
    Option (CacheEntry κ) × IndexState κ :=
  match alookup k idx with
  | none => (none, idx)
  | some e =>
      let e' := { e with lastAccessed := now }
      (some e', aupdate k e' idx)

/-- The CAS store state: blob files plus the index.  The sharded
`ab/cd/<hex>` file path is a bijective image of the hash and is modelled by
the hash itself. -/
structure CasState (κ : Type) where
  files : List (κ × List Nat)
  index : IndexState κ
  deriving DecidableEq, Repr

/-- A fresh store. -/
def emptyCas (κ : Type) : CasState κ := ⟨[], []⟩

/-- `CasStore::store`: hash the content, skip the write when the path already
exists (only touching the index entry), otherwise write the blob and insert a
fresh `CacheEntry`.  `hashFn` models blake3 `compute_hash`, `now` the clock. -/
def CasStore.store {κ : Type} [DecidableEq κ] (hashFn : List Nat → κ) (now : Int)
    (s : CasState κ) (content : List Nat) : CasState κ × κ :=
  let h := hashFn content
  match alookup h s.files with
  | some _ =>
      match casIndexGet now s.index h with
      | (some e, idx1) =>
          ({ s with index := aupdate h { e with lastAccessed := now } idx1 }, h)
      | (none, idx1) => ({ s with index := idx1 }, h)
  | none =>
      ({ files := aupdate h content s.files,
         index := aupdate h ⟨h, content.length, now, now⟩ s.index }, h)

/-- `CasStore::get`: read the blob (`IntegrityFailure` when missing) and touch
the index entry. -/
def CasStore.get {κ : Type} [DecidableEq κ] (now : Int) (s : CasState κ) (h : κ) :
    Except PeaErrorKind (List Nat) × CasState κ :=
  match alookup h s.files with
  | none => (.error .integrityFailure, s)
  | some content =>
      match casIndexGet now s.index h with
      | (some e, idx1) =>
          (.ok content, { s with index := aupdate h { e with lastAccessed := now } idx1 })
      | (none, idx1) => (.ok content, { s with index := idx1 })

/-- `CasStore::verify`: re-hash the stored bytes; a failing `get` is `Ok(false)`. -/
def CasStore.verify {κ : Type} [DecidableEq κ] (hashFn : List Nat → κ) (now : Int)
    (s : CasState κ) (h : κ) : Except PeaErrorKind Bool × CasState κ :=
  match CasStore.get now s h with
  | (.ok content, s') => (.ok (decide (hashFn content = h)), s')
  | (.error _, s') => (.ok false, s')

/-- `GcResult`. -/
structure GcResult where
  entriesRemoved : Nat
  freedSpace : Nat
  deriving DecidableEq, Repr

/-- `CasStore::find_unreferenced_entries`: computes the age threshold and then
returns the empty list — the index scan is a `TODO` placeholder in the source
("For now, return empty list"). -/
def CasStore.findUnreferencedEntries {κ : Type} (now maxAgeDays : Int)
    (_s : CasState κ) : List κ :=
  let _threshold := now - maxAgeDays * 24 * 60 * 60
  []

/-- `CasStore::remove_entries`: delete each keyed blob file and accumulate the
freed byte count; index entries are NOT removed (`TODO` in the source). -/
def CasStore.removeEntries {κ : Type} [DecidableEq κ] (s : CasState κ)
    (keys : List κ) : CasState κ × Nat :=
  keys.foldl
    (fun acc key =>
      match alookup key acc.1.index with
      | none => acc
      | some entry =>
          match alookup entry.hash acc.1.files with
          | none => acc
          | some content =>
              ({ acc.1 with files := aremove entry.hash acc.1.files },
                acc.2 + content.length))
    (s, 0)

/-- `CasStore::garbage_collect`: remove the (stub-empty) unreferenced set,
persist the index (no in-memory change), return the counts. -/
def CasStore.garbageCollect {κ : Type} [DecidableEq κ] (now maxAgeDays : Int)
    (s : CasState κ) : GcResult × CasState κ :=
  let unreferenced := CasStore.findUnreferencedEntries now maxAgeDays s
  let rm := CasStore.removeEntries s unreferenced
  (⟨unreferenced.length, rm.2⟩, rm.1)

/-- `CasIndex::save`: collect `(key, entry)` pairs in the map's iteration
order and serialize them; no sorting is performed.  The serialized JSON
sequence is modelled by the pair list itself. -/
def CasIndex.savePairs {κ : Type} (idx : IndexState κ) : List (κ × CacheEntry κ) :=
  idx.map (fun e => (e.1, e.2))

/-- `CasIndex::load_or_create` applied to a saved sequence: insert every pair
into a fresh map. -/
def CasIndex.loadPairs {κ : Type} [DecidableEq κ]
    (pairs : List (κ × CacheEntry κ)) : IndexState κ :=
  pairs.foldl (fun m p => aupdate p.1 p.2 m) []

/-! ## Tarball extraction (pea-cache/src/tarball/extract.rs) -/

/-- Rust `std::path::Component` (the Windows-only `Prefix` is elided; it falls
into the same skipped wildcard arm as `CurDir`). -/
inductive PathComponent where
  | normal (name : String)
  | parentDir
  | rootDir
  | curDir
  deriving DecidableEq, Repr

/-- `tar::EntryType`, collapsed to the cases the extractor distinguishes. -/
inductive EntryType where
  | regular
  | directory
  | symlink
  | hardlink
  | other
  deriving DecidableEq, Repr

/-- One archive entry: its path, type, file bytes, and link target. -/
structure TarEntry where
  path : List PathComponent
  etype : EntryType
  content : List Nat
  linkTarget : Option (List PathComponent)
  deriving DecidableEq, Repr

/-- Filesystem effects the extractor performs (permission bits elided). -/
inductive FsAction where
  | writeFile (path : List String) (content : List Nat)
  | mkdir (path : List String)
  | makeLink (path : List String) (target : List PathComponent)
  deriving DecidableEq, Repr

/-- The filesystem location an action touches. -/
def actionPath : FsAction → List String
  | .writeFile p _ => p
  | .mkdir p => p
  | .makeLink p _ => p

/-- Component walk of `validate_extract_path`: push `Normal`, reject
`ParentDir` and `RootDir` with `IntegrityFailure`, skip the rest. -/
def pushComponents : List PathComponent → List String → Except PeaErrorKind (List String)
  | [], safePath => .ok safePath
  | .normal name :: rest, safePath => pushComponents rest (safePath ++ [name])
  | .parentDir :: _, _ => .error .integrityFailure
  | .rootDir :: _, _ => .error .integrityFailure
  | .curDir :: rest, safePath => pushComponents rest safePath

/-- `validate_extract_path`: walk the components, then re-check that the
result still starts with the destination root. -/
def validateExtractPath (entryPath : List PathComponent) (destDir : List String) :
    Except PeaErrorKind (List String) :=
  match pushComponents entryPath destDir with
  | .error e => .error e
  | .ok safePath =>
      if destDir.isPrefixOf safePath then .ok safePath
      else .error .integrityFailure

/-- Rust `Path::is_absolute` on Unix: the path has a root component. -/
def isAbsolutePath : List PathComponent → Bool
  | .rootDir :: _ => true
  | _ => false

/-- `extract_symlink`: an absent target is silently skipped; absolute targets
are rejected; otherwise the target is joined — unnormalized, `..` kept as
literal components — onto the entry's parent directory and checked against the
destination with the purely syntactic `Path::starts_with`. -/
def extractSymlink (linkTarget : Option (List PathComponent))
    (destPath destDir : List String) : Except PeaErrorKind (Option FsAction) :=
  match linkTarget with
  | none => .ok none
  | some target =>
      if isAbsolutePath target then .error .integrityFailure
      else
        let parent : List String := if destPath.isEmpty then destDir else destPath.dropLast
        let resolvedTarget : List PathComponent :=
          parent.map PathComponent.normal ++ target
        if (destDir.map PathComponent.normal).isPrefixOf resolvedTarget then
          .ok (some (.makeLink destPath target))
        else .error .integrityFailure

/-- Processing of one archive entry: validate the path first (every entry type
is validated), then dispatch on the entry type. -/
def extractEntry (e : TarEntry) (destDir : List String) :
    Except PeaErrorKind (List FsAction) :=
  match validateExtractPath e.path destDir with
  | .error err => .error err
  | .ok safePath =>
      match e.etype with
      | .regular => .ok [.writeFile safePath e.content]
      | .directory => .ok [.mkdir safePath]
      | .symlink =>
          match extractSymlink e.linkTarget safePath destDir with
          | .error err => .error err
          | .ok none => .ok []
          | .ok (some a) => .ok [a]
      | .hardlink =>
          match extractSymlink e.linkTarget safePath destDir with
          | .error err => .error err
          | .ok none => .ok []
          | .ok (some a) => .ok [a]
      | .other => .ok []

/-- One step of the extraction loop: once an error occurred nothing further
happens; otherwise process the entry and append its actions. -/
def extractStep (destDir : List String) (acc : List FsAction × Option PeaErrorKind)
    (e : TarEntry) : List FsAction × Option PeaErrorKind :=
  match acc.2 with
  | some _ => acc
  | none =>
      match extractEntry e destDir with
      | .error err => (acc.1, some err)
      | .ok acts => (acc.1 ++ acts, none)

/-- `extract_tarball`: create the destination directory, then process entries
in order, stopping at the first error; actions already performed remain. -/
def extractTarball (entries : List TarEntry) (destDir : List String) :
    List FsAction × Option PeaErrorKind :=
  entries.foldl (extractStep destDir) ([FsAction.mkdir destDir], none)

/-- Filesystem resolution of a relative path against a base directory: `..`
pops a component (escaping above the filesystem root yields `none`); used to
state where a created link actually points. -/
def resolveRel (base : List String) : List PathComponent → Option (List String)
  | [] => some base
  | .normal n :: rest => resolveRel (base ++ [n]) rest
  | .parentDir :: rest =>
      match base with
      | [] => none
      | _ :: _ => resolveRel base.dropLast rest
  | .curDir :: rest => resolveRel base rest
  | .rootDir :: rest => resolveRel [] rest

/-! ## Dependency graph (pea-resolver/src/graph/mod.rs) -/

/-- `PackageId`: the graph key. -/
structure PackageId where
  name : String
  version : Version
  deriving DecidableEq, Repr

/-- `DependencyKind`. -/
inductive DependencyKind where
  | normal
  | dev
  | peer
  | optional
  deriving DecidableEq, Repr

/-- `DependencyEdge`. -/
structure DependencyEdge where
  versionReq : VersionReq
  kind : DependencyKind
  optional : Bool
  deriving DecidableEq, Repr

/-- One directed edge of the graph with its payload. -/
structure GraphEdge where
  src : PackageId
  tgt : PackageId
  edge : DependencyEdge
  deriving DecidableEq, Repr

/-- The dependency graph.  Node payloads (`PackageNode`) are keyed by their
`PackageId`, to which `detect_cycles`/`topological_sort` project; nodes are
modelled by those ids. -/
structure DependencyGraph where
  nodes : List PackageId
  edges : List GraphEdge
  deriving DecidableEq, Repr

/-- An empty graph. -/
def DependencyGraph.empty : DependencyGraph := ⟨[], []⟩

/-- `add_package`: idempotent on an already-present id. -/
def DependencyGraph.addPackage (g : DependencyGraph) (id : PackageId) :
    DependencyGraph :=
  if id ∈ g.nodes then g else { g with nodes := g.nodes ++ [id] }

/-- `add_dependency`: fails when either endpoint is absent. -/
def DependencyGraph.addDependency (g : DependencyGraph) (fromId toId : PackageId)
    (e : DependencyEdge) : Except String DependencyGraph :=
  if fromId ∈ g.nodes then
    if toId ∈ g.nodes then .ok { g with edges := g.edges ++ [⟨fromId, toId, e⟩] }
    else .error "Package not found"
  else .error "Package not found"

/-- No edge from a still-remaining node into `v`. -/
def noIncoming (edges : List GraphEdge) (remaining : List PackageId)
    (v : PackageId) : Bool :=
  edges.all (fun e => !(decide (e.tgt = v) && decide (e.src ∈ remaining)))

/-- Kahn's algorithm, modelling `petgraph::algo::toposort`'s contract: it
succeeds exactly on acyclic graphs and emits each edge's source before its
target. -/
def kahnAux (edges : List GraphEdge) :
    Nat → List PackageId → List PackageId → Option (List PackageId)
  | 0, remaining, acc => if remaining.isEmpty then some acc else none
  | fuel + 1, remaining, acc =>
      if remaining.isEmpty then some acc
      else
        match remaining.find? (noIncoming edges remaining) with
        | none => none
        | some v => kahnAux edges fuel (remaining.erase v) (acc ++ [v])

/-- `topological_sort`: toposort of the graph, projected to ids; `none`
models the cycle error. -/
def DependencyGraph.topologicalSort (g : DependencyGraph) : Option (List PackageId) :=
  kahnAux g.edges g.nodes.length g.nodes []

/-- `detect_cycles` reports no cycle (returns `Ok(vec![])`) exactly when the
same `toposort` call succeeds; the representative cycle path returned on
failure is elided. -/
def DependencyGraph.detectCyclesOk (g : DependencyGraph) : Bool :=
  g.topologicalSort.isSome

/-- Build a graph from ids (`add_package`) and edges (`add_dependency`,
failures ignored). -/
def buildGraph (ids : List PackageId)
    (deps : List (PackageId × PackageId × DependencyEdge)) : DependencyGraph :=
  deps.foldl
    (fun g d =>
      match g.addDependency d.1 d.2.1 d.2.2 with
      | .ok g' => g'
      | .error _ => g)
    (ids.foldl DependencyGraph.addPackage DependencyGraph.empty)

/-! ## Resolver feature gating (pea-resolver/src/sat/mod.rs) -/

/-- `Resolver::should_include_dependency`; the enabled-feature `HashSet` is
modelled as a list queried by membership. -/
def shouldIncludeDependency (depName : String) (isOptional : Bool)
    (enabledFeatures : Option (List String)) : Bool :=
  if !isOptional then true
  else
    match enabledFeatures with
    | some features => features.contains depName
    | none => false

/-- Strict precedence order between versions (`precedence_cmp` yields `Less`). -/
def precLt (a b : Version) : Prop := Version.precedenceCmp a b = .lt

/-! ## Concrete inputs used by the claim theorems -/

/-- A store state holding one entry stored at epoch second 0. -/
def gcStaleState : CasState (List Nat) :=
  ⟨[([7], [1, 2, 3])], [([7], ⟨[7], 3, 0, 0⟩)]⟩

/-- The spec's canonical traversal entry `safe/../../etc/passwd`. -/
def traversalEntry : TarEntry :=
  ⟨[.normal "safe", .parentDir, .parentDir, .normal "etc", .normal "passwd"],
    .regular, [], none⟩

/-- A symlink entry `link -> ../evil` at the top of the archive. -/
def escapeLinkEntry : TarEntry :=
  ⟨[.normal "link"], .symlink, [], some [.parentDir, .normal "evil"]⟩

/-- Index contents inserted in the order `bb`, `aa` (unsorted iteration). -/
def idxBA : IndexState String := [("bb", ⟨"bb", 2, 0, 0⟩), ("aa", ⟨"aa", 1, 0, 0⟩)]

/-- The same entries in the opposite iteration order. -/
def idxAB : IndexState String := [("aa", ⟨"aa", 1, 0, 0⟩), ("bb", ⟨"bb", 2, 0, 0⟩)]

/-- Graph node `a@1.0.0`. -/
def pidA : PackageId := ⟨"a", ⟨1, 0, 0, none, none⟩⟩

/-- Graph node `b@2.0.0`. -/
def pidB : PackageId := ⟨"b", ⟨2, 0, 0, none, none⟩⟩

/-- Graph node `c@3.0.0`. -/
def pidC : PackageId := ⟨"c", ⟨3, 0, 0, none, none⟩⟩

/-- A normal, non-optional edge payload with a wildcard requirement. -/
def normalEdge : DependencyEdge :=
  ⟨⟨[⟨.wildcard, ⟨0, none, none, none⟩⟩]⟩, .normal, false⟩

/-- The three nodes of the witness graph. -/
def wGraphIds : List PackageId := [pidA, pidB, pidC]

/-- The witness edges: `a → b` and `b → c`. -/
def wGraphDeps : List (PackageId × PackageId × DependencyEdge) :=
  [(pidA, pidB, normalEdge), (pidB, pidC, normalEdge)]

/-! ### Lemmas about splitting -/

theorem splitOnce_not_mem (c : Char) : ∀ s : List Char, c ∉ s → splitOnce c s = none := by
  intro s
  induction s with
  | nil => intro _; rfl
  | cons x xs ih =>
      intro h
      have hx : ¬ x = c := fun hxc => h (hxc ▸ List.mem_cons_self x xs)
      have hxs : c ∉ xs := fun hm => h (List.mem_cons_of_mem _ hm)
      simp only [splitOnce, if_neg hx, ih hxs]

theorem splitOnce_append (c : Char) :
    ∀ a b : List Char, c ∉ a → splitOnce c (a ++ c :: b) = some (a, b) := by
  intro a
  induction a with
  | nil => intro b _; simp [splitOnce]
  | cons x xs ih =>
      intro b h
      have hx : ¬ x = c := fun hxc => h (hxc ▸ List.mem_cons_self x xs)
      have hxs : c ∉ xs := fun hm => h (List.mem_cons_of_mem _ hm)
      simp only [List.cons_append, splitOnce, if_neg hx, List.append_eq]
      rw [ih b hxs]

theorem splitOnce_some (c : Char) :
    ∀ s a b, splitOnce c s = some (a, b) → s = a ++ c :: b ∧ c ∉ a := by
  intro s
  induction s with
  | nil => intro a b h; exact absurd h (by simp [splitOnce])
  | cons x xs ih =>
      intro a b h
      by_cases hx : x = c
      · subst hx
        simp only [splitOnce, if_pos rfl, Option.some.injEq, Prod.mk.injEq] at h
        obtain ⟨rfl, rfl⟩ := h
        exact ⟨rfl, List.not_mem_nil _⟩
      · simp only [splitOnce, if_neg hx] at h
        cases heq : splitOnce c xs with
        | none => rw [heq] at h; exact absurd h (by simp)
        | some p =>
            obtain ⟨p1, p2⟩ := p
            rw [heq] at h
            simp only [Option.some.injEq, Prod.mk.injEq] at h
            obtain ⟨rfl, rfl⟩ := h
            obtain ⟨hs, hna⟩ := ih p1 p2 heq
            refine ⟨by rw [hs]; rfl, ?_⟩
            intro hm
            rcases List.mem_cons.mp hm with hm | hm
            · exact hx hm.symm
            · exact hna hm

theorem splitAll_no_sep (c : Char) : ∀ a : List Char, c ∉ a → splitAll c a = [a] := by
  intro a
  induction a with
  | nil => intro _; rfl
  | cons x xs ih =>
      intro h
      have hx : ¬ x = c := fun hxc => h (hxc ▸ List.mem_cons_self x xs)
      have hxs : c ∉ xs := fun hm => h (List.mem_cons_of_mem _ hm)
      simp only [splitAll, if_neg hx, ih hxs]

theorem splitAll_append_sep (c : Char) :
    ∀ a rest : List Char, c ∉ a →
      splitAll c (a ++ c :: rest) = a :: splitAll c rest := by
  intro a
  induction a with
  | nil => intro rest _; simp [splitAll]
  | cons x xs ih =>
      intro rest h
      have hx : ¬ x = c := fun hxc => h (hxc ▸ List.mem_cons_self x xs)
      have hxs : c ∉ xs := fun hm => h (List.mem_cons_of_mem _ hm)
      simp only [List.cons_append, splitAll, if_neg hx, List.append_eq]
      rw [ih rest hxs]

theorem splitAll_three (c : Char) (a b d : List Char)
    (ha : c ∉ a) (hb : c ∉ b) (hd : c ∉ d) :
    splitAll c (a ++ c :: (b ++ c :: d)) = [a, b, d] := by
  rw [splitAll_append_sep c a _ ha, splitAll_append_sep c b d hb, splitAll_no_sep c d hd]

/-! ### Lemmas about decimal digits -/

theorem digitChar_spec {d : Nat} (hd : d < 10) :
    (digitChar d).toNat = 48 + d ∧ (digitChar d).isDigit = true ∧
      digitChar d ≠ '+' ∧ digitChar d ≠ '-' ∧ digitChar d ≠ '.' ∧
      (digitChar d).isWhitespace = false := by
  interval_cases d <;> exact ⟨by decide, by decide, by decide, by decide, by decide, by decide⟩

theorem natToDec_chars {n : Nat} : ∀ c ∈ natToDec n, ∃ d, d < 10 ∧ c = digitChar d := by
  intro c hc
  unfold natToDec at hc
  split at hc
  · rcases List.mem_singleton.mp hc with rfl
    exact ⟨0, by norm_num, by decide⟩
  · simp only [List.mem_map, List.mem_reverse] at hc
    obtain ⟨d, hdm, rfl⟩ := hc
    exact ⟨d, Nat.digits_lt_base (by norm_num) hdm, rfl⟩

theorem natToDec_ne_nil (n : Nat) : natToDec n ≠ [] := by
  unfold natToDec
  split
  · simp
  · intro h
    rw [List.map_eq_nil_iff, List.reverse_eq_nil_iff] at h
    exact (Nat.digits_ne_nil_iff_ne_zero.mpr (by assumption)) h

theorem digitsVal_append (l : List Char) (c : Char) :
    digitsVal (l ++ [c]) = digitsVal l * 10 + (c.toNat - 48) := by
  simp [digitsVal, List.foldl_append]

theorem digitsVal_of_digits :
    ∀ ds : List Nat, (∀ d ∈ ds, d < 10) →
      digitsVal (ds.reverse.map digitChar) = Nat.ofDigits 10 ds := by
  intro ds
  induction ds with
  | nil => intro _; simp [digitsVal, Nat.ofDigits]
  | cons d rest ih =>
      intro h
      have hd : d < 10 := h d (List.mem_cons_self _ _)
      rw [List.reverse_cons, List.map_append]
      simp only [List.map_cons, List.map_nil]
      rw [digitsVal_append, ih (fun x hx => h x (List.mem_cons_of_mem _ hx))]
      rw [Nat.ofDigits_cons, (digitChar_spec hd).1]
      omega

theorem digitsVal_natToDec (n : Nat) : digitsVal (natToDec n) = n := by
  unfold natToDec
  split
  · rename_i h0; subst h0; decide
  · rw [digitsVal_of_digits _ (fun d hd => Nat.digits_lt_base (by norm_num) hd)]
    exact_mod_cast Nat.ofDigits_digits 10 n

theorem parseDigits_lt {t : List Char} {n : Nat} (h : parseDigits t = some n) :
    n < u64Bound := by
  unfold parseDigits at h
  split at h
  · split at h
    · rename_i hlt
      obtain rfl : digitsVal t = n := Option.some.inj h
      exact hlt
    · exact absurd h (by simp)
  · exact absurd h (by simp)

theorem parseU64_lt {s : List Char} {n : Nat} (h : parseU64 s = some n) : n < u64Bound :=
  parseDigits_lt h

theorem parseU64_natToDec {n : Nat} (h : n < u64Bound) : parseU64 (natToDec n) = some n := by
  obtain ⟨c, cs, hcc⟩ : ∃ c cs, natToDec n = c :: cs := by
    cases hn : natToDec n with
    | nil => exact absurd hn (natToDec_ne_nil n)
    | cons c cs => exact ⟨c, cs, rfl⟩
  have hcmem : c ∈ natToDec n := hcc ▸ List.mem_cons_self c cs
  obtain ⟨d, hd, rfl⟩ := natToDec_chars c hcmem
  have hplus : (natToDec n).head? ≠ some '+' := by
    rw [hcc]
    simp only [List.head?_cons, Ne, Option.some.injEq]
    exact (digitChar_spec hd).2.2.1
  have hdigits : (natToDec n).all Char.isDigit = true := by
    rw [List.all_eq_true]
    intro x hx
    obtain ⟨e, he, rfl⟩ := natToDec_chars x hx
    exact (digitChar_spec he).2.1
  have hne : (natToDec n).isEmpty = false := by rw [hcc]; rfl
  have hcond : (!(natToDec n).isEmpty && (natToDec n).all Char.isDigit) = true := by
    rw [hne, hdigits]; rfl
  unfold parseU64 parseDigits
  rw [if_neg hplus, if_pos hcond, digitsVal_natToDec, if_pos h]

/-! ### Lemmas about trimming -/

theorem head?_dropWhile {p : Char → Bool} :
    ∀ {l : List Char} {c : Char}, (l.dropWhile p).head? = some c → p c = false := by
  intro l
  induction l with
  | nil => intro c h; exact absurd h (by simp [List.dropWhile])
  | cons x xs ih =>
      intro c h
      rw [List.dropWhile_cons] at h
      by_cases hx : p x
      · rw [if_pos hx] at h; exact ih h
      · rw [if_neg hx] at h
        simp only [List.head?_cons, Option.some.injEq] at h
        subst h
        exact Bool.eq_false_iff.mpr hx

theorem dropWhile_head_false {p : Char → Bool} {l : List Char}
    (h : ∀ c, l.head? = some c → p c = false) : l.dropWhile p = l := by
  cases l with
  | nil => rfl
  | cons x xs =>
      rw [List.dropWhile_cons, if_neg]
      simp [h x rfl]

theorem trimList_eq_self {s : List Char}
    (hh : ∀ c, s.head? = some c → c.isWhitespace = false)
    (hl : ∀ c, s.getLast? = some c → c.isWhitespace = false) : trimList s = s := by
  unfold trimList
  rw [dropWhile_head_false hh]
  rw [dropWhile_head_false (fun c hc => hl c (List.head?_reverse s ▸ hc))]
  exact List.reverse_reverse s

theorem trimList_getLast {s : List Char} {c : Char}
    (h : (trimList s).getLast? = some c) : c.isWhitespace = false := by
  unfold trimList at h
  rw [List.getLast?_reverse] at h
  exact head?_dropWhile h

/-! ### Well-formedness produced by parsing -/

/-- The displayed form's final character is not whitespace: whichever of
build/prerelease is rendered last must not end in whitespace. -/
def lastOk (build pre : Option (List Char)) : Prop :=
  match build, pre with
  | some b, _ => ∀ c, b.getLast? = some c → c.isWhitespace = false
  | none, some p => ∀ c, p.getLast? = some c → c.isWhitespace = false
  | none, none => True

/-- Invariants every successfully parsed `Version` satisfies, sufficient for
the display/reparse round trip. -/
def Version.wellFormed (v : Version) : Prop :=
  v.major < u64Bound ∧ v.minor < u64Bound ∧ v.patch < u64Bound ∧
    (∀ p, v.prerelease = some p → '+' ∉ p) ∧ lastOk v.build v.prerelease

/-! ### Splitting characterizations -/

theorem splitOnce_mem (c : Char) :
    ∀ s : List Char, c ∈ s → ∃ p, splitOnce c s = some p := by
  intro s
  induction s with
  | nil => intro h; exact absurd h (List.not_mem_nil c)
  | cons x xs ih =>
      intro h
      by_cases hx : x = c
      · exact ⟨([], xs), by simp [splitOnce, hx]⟩
      · have hm : c ∈ xs := by
          rcases List.mem_cons.mp h with h1 | h1
          · exact absurd h1.symm hx
          · exact h1
        obtain ⟨p, hp⟩ := ih hm
        exact ⟨(x :: p.1, p.2), by simp [splitOnce, hx, hp]⟩

theorem buildSplit_cases (input : List Char) :
    ('+' ∉ input ∧ buildSplit input = (input, none)) ∨
      (∃ vp b, input = vp ++ '+' :: b ∧ '+' ∉ vp ∧ buildSplit input = (vp, some b)) := by
  cases h : splitOnce '+' input with
  | none =>
      left
      refine ⟨?_, by unfold buildSplit; rw [h]⟩
      intro hmem
      obtain ⟨p, hp⟩ := splitOnce_mem '+' input hmem
      rw [hp] at h
      exact Option.noConfusion h
  | some p =>
      right
      obtain ⟨vp, b⟩ := p
      obtain ⟨hs, hn⟩ := splitOnce_some '+' input vp b h
      exact ⟨vp, b, hs, hn, by unfold buildSplit; rw [h]⟩

theorem preSplit_cases (vp : List Char) :
    ('-' ∉ vp ∧ preSplit vp = (vp, none)) ∨
      (∃ core p, vp = core ++ '-' :: p ∧ '-' ∉ core ∧ preSplit vp = (core, some p)) := by
  cases h : splitOnce '-' vp with
  | none =>
      left
      refine ⟨?_, by unfold preSplit; rw [h]⟩
      intro hmem
      obtain ⟨p, hp⟩ := splitOnce_mem '-' vp hmem
      rw [hp] at h
      exact Option.noConfusion h
  | some p =>
      right
      obtain ⟨core, pr⟩ := p
      obtain ⟨hs, hn⟩ := splitOnce_some '-' vp core pr h
      exact ⟨core, pr, hs, hn, by unfold preSplit; rw [h]⟩

theorem parseCore_ok {core input : List Char} {pre build : Option (List Char)} {v : Version}
    (h : parseCore core input pre build = .ok v) :
    v.prerelease = pre ∧ v.build = build ∧
      v.major < u64Bound ∧ v.minor < u64Bound ∧ v.patch < u64Bound := by
  unfold parseCore at h
  split at h
  · split at h
    · exact absurd h (by simp)
    · rename_i heq0
      split at h
      · exact absurd h (by simp)
      · rename_i heq1
        split at h
        · exact absurd h (by simp)
        · rename_i heq2
          have hv := Except.ok.inj h
          subst hv
          exact ⟨rfl, rfl, parseU64_lt heq0, parseU64_lt heq1, parseU64_lt heq2⟩
  · exact absurd h (by simp)

theorem getLast?_cons_of_ne_nil {α : Type} (x : α) {l : List α} (h : l ≠ []) :
    (x :: l).getLast? = l.getLast? := by
  cases l with
  | nil => exact absurd rfl h
  | cons y ys => rfl

/-! ### Parsing produces well-formed versions -/

theorem parse_ok_wellFormed {s : List Char} {v : Version}
    (h : Version.parse s = .ok v) : v.wellFormed := by
  unfold Version.parse at h
  have htrimlast : ∀ c, (trimList s).getLast? = some c → c.isWhitespace = false :=
    fun c hc => trimList_getLast hc
  rcases buildSplit_cases (trimList s) with ⟨hplus, hbs⟩ | ⟨vp, b, hin, hplusvp, hbs⟩
  · -- no build part
    rw [hbs] at h
    dsimp only at h
    rcases preSplit_cases (trimList s) with ⟨hdash, hps⟩ | ⟨core, p, hvp, hdashc, hps⟩
    · -- no prerelease part either
      rw [hps] at h
      dsimp only at h
      obtain ⟨hpre, hbuild, hM, hm, hp⟩ := parseCore_ok h
      refine ⟨hM, hm, hp, ?_, ?_⟩
      · intro p hps'; rw [hpre] at hps'; exact absurd hps' (by simp)
      · rw [hbuild, hpre]; trivial
    · -- prerelease present, no build
      rw [hps] at h
      dsimp only at h
      obtain ⟨hpre, hbuild, hM, hm, hp⟩ := parseCore_ok h
      refine ⟨hM, hm, hp, ?_, ?_⟩
      · intro p' hps'
        rw [hpre] at hps'
        obtain rfl : p = p' := Option.some.inj hps'
        intro hmem
        exact hplus (hvp ▸ List.mem_append_right core (List.mem_cons_of_mem _ hmem))
      · rw [hbuild, hpre]
        intro c hc
        have hpn : p ≠ [] := by
          intro hnil; rw [hnil] at hc; exact Option.noConfusion hc
        apply htrimlast c
        rw [hvp, List.getLast?_append_of_ne_nil core (by simp),
          getLast?_cons_of_ne_nil '-' hpn]
        exact hc
  · -- build part present
    rw [hbs] at h
    dsimp only at h
    rcases preSplit_cases vp with ⟨hdash, hps⟩ | ⟨core, p, hvp, hdashc, hps⟩
    · rw [hps] at h
      dsimp only at h
      obtain ⟨hpre, hbuild, hM, hm, hp⟩ := parseCore_ok h
      refine ⟨hM, hm, hp, ?_, ?_⟩
      · intro p hps'; rw [hpre] at hps'; exact absurd hps' (by simp)
      · rw [hbuild]
        intro c hc
        have hbn : b ≠ [] := by
          intro hnil; rw [hnil] at hc; exact Option.noConfusion hc
        apply htrimlast c
        rw [hin, List.getLast?_append_of_ne_nil vp (by simp),
          getLast?_cons_of_ne_nil '+' hbn]
        exact hc
    · rw [hps] at h
      obtain ⟨hpre, hbuild, hM, hm, hp⟩ := parseCore_ok h
      refine ⟨hM, hm, hp, ?_, ?_⟩
      · intro p' hps'
        rw [hpre] at hps'
        obtain rfl : p = p' := Option.some.inj hps'
        intro hmem
        exact hplusvp (hvp ▸ List.mem_append_right core (List.mem_cons_of_mem _ hmem))
      · rw [hbuild]
        intro c hc
        have hbn : b ≠ [] := by
          intro hnil; rw [hnil] at hc; exact Option.noConfusion hc
        apply htrimlast c
        rw [hin, List.getLast?_append_of_ne_nil vp (by simp),
          getLast?_cons_of_ne_nil '+' hbn]
        exact hc

/-! ### Well-formed versions reparse to themselves -/

theorem mem_natToDec_spec {n : Nat} {c : Char} (h : c ∈ natToDec n) :
    c.isDigit = true ∧ c ≠ '+' ∧ c ≠ '-' ∧ c ≠ '.' ∧ c.isWhitespace = false := by
  obtain ⟨d, hd, rfl⟩ := natToDec_chars c h
  obtain ⟨_, h1, h2, h3, h4, h5⟩ := digitChar_spec hd
  exact ⟨h1, h2, h3, h4, h5⟩

theorem mem_coreChars {v : Version} {c : Char} (h : c ∈ coreChars v) :
    c = '.' ∨ (c ≠ '+' ∧ c ≠ '-' ∧ c.isWhitespace = false) := by
  unfold coreChars at h
  rcases List.mem_append.mp h with h | h
  · obtain ⟨_, h2, h3, _, h5⟩ := mem_natToDec_spec h
    exact Or.inr ⟨h2, h3, h5⟩
  · rcases List.mem_cons.mp h with rfl | h
    · exact Or.inl rfl
    · rcases List.mem_append.mp h with h | h
      · obtain ⟨_, h2, h3, _, h5⟩ := mem_natToDec_spec h
        exact Or.inr ⟨h2, h3, h5⟩
      · rcases List.mem_cons.mp h with rfl | h
        · exact Or.inl rfl
        · obtain ⟨_, h2, h3, _, h5⟩ := mem_natToDec_spec h
          exact Or.inr ⟨h2, h3, h5⟩

theorem plus_not_mem_coreChars (v : Version) : '+' ∉ coreChars v := by
  intro h
  rcases mem_coreChars h with h | ⟨h1, _, _⟩
  · exact absurd h (by decide)
  · exact h1 rfl

theorem dash_not_mem_coreChars (v : Version) : '-' ∉ coreChars v := by
  intro h
  rcases mem_coreChars h with h | ⟨_, h2, _⟩
  · exact absurd h (by decide)
  · exact h2 rfl

theorem dot_not_mem_natToDec (n : Nat) : '.' ∉ natToDec n :=
  fun h => (mem_natToDec_spec h).2.2.2.1 rfl

theorem plus_not_mem_optDash {pre : Option (List Char)}
    (hp : ∀ p, pre = some p → '+' ∉ p) : '+' ∉ optDash pre := by
  cases pre with
  | none => simp [optDash]
  | some p =>
      intro h
      rcases List.mem_cons.mp h with h | h
      · exact absurd h (by decide)
      · exact hp p rfl h

theorem getLast?_cons_spec {α : Type} {x : α} {l : List α} {c : α}
    (h : (x :: l).getLast? = some c) : c = x ∨ l.getLast? = some c := by
  cases l with
  | nil => exact Or.inl (Option.some.inj h).symm
  | cons y ys =>
      right
      rw [show ((x :: y :: ys).getLast? = (y :: ys).getLast?) from
        getLast?_cons_of_ne_nil x (by simp)] at h
      exact h

theorem mem_of_getLast?_some {α : Type} :
    ∀ {l : List α} {a : α}, l.getLast? = some a → a ∈ l := by
  intro l
  induction l with
  | nil => intro a h; exact absurd h (by simp)
  | cons x xs ih =>
      intro a h
      rcases getLast?_cons_spec h with rfl | h'
      · exact List.mem_cons_self _ _
      · exact List.mem_cons_of_mem _ (ih h')

theorem toChars_head {v : Version} : ∀ c, v.toChars.head? = some c →
    c.isWhitespace = false := by
  intro c hc
  unfold Version.toChars coreChars at hc
  cases hM : natToDec v.major with
  | nil => exact absurd hM (natToDec_ne_nil _)
  | cons c0 cs =>
      rw [hM] at hc
      simp only [List.cons_append, List.head?_cons, Option.some.injEq] at hc
      subst hc
      have hmem : c0 ∈ natToDec v.major := by
        rw [hM]; exact List.mem_cons_self c0 cs
      exact (mem_natToDec_spec hmem).2.2.2.2

theorem toChars_last {v : Version}
    (hlast : lastOk v.build v.prerelease) :
    ∀ c, v.toChars.getLast? = some c → c.isWhitespace = false := by
  intro c hc
  have htc : v.toChars = (coreChars v ++ optDash v.prerelease) ++ optPlus v.build := rfl
  rw [htc] at hc
  cases hb : v.build with
  | some b =>
      rw [hb] at hlast
      dsimp only [lastOk] at hlast
      rw [hb, show optPlus (some b) = '+' :: b from rfl] at hc
      rw [List.getLast?_append_of_ne_nil _ (by simp)] at hc
      rcases getLast?_cons_spec hc with rfl | hc'
      · decide
      · exact hlast c hc'
  | none =>
      rw [hb, show optPlus none = [] from rfl, List.append_nil] at hc
      rw [hb] at hlast
      cases hpo : v.prerelease with
      | some p =>
          rw [hpo] at hlast
          dsimp only [lastOk] at hlast
          rw [hpo, show optDash (some p) = '-' :: p from rfl] at hc
          rw [List.getLast?_append_of_ne_nil _ (by simp)] at hc
          rcases getLast?_cons_spec hc with rfl | hc'
          · decide
          · exact hlast c hc'
      | none =>
          rw [hpo, show optDash none = [] from rfl, List.append_nil] at hc
          unfold coreChars at hc
          rw [List.getLast?_append_of_ne_nil _ (by simp)] at hc
          rcases getLast?_cons_spec hc with rfl | hc'
          · decide
          · rw [List.getLast?_append_of_ne_nil _ (by simp)] at hc'
            rcases getLast?_cons_spec hc' with rfl | hc''
            · decide
            · exact (mem_natToDec_spec (mem_of_getLast?_some hc'')).2.2.2.2

theorem wellFormed_parse {v : Version} (h : v.wellFormed) :
    Version.parse v.toChars = .ok v := by
  obtain ⟨hM, hm, hp, hpre, hlast⟩ := h
  have htrim : trimList v.toChars = v.toChars :=
    trimList_eq_self toChars_head (toChars_last hlast)
  have htc : v.toChars = (coreChars v ++ optDash v.prerelease) ++ optPlus v.build := rfl
  have hplusX : '+' ∉ coreChars v ++ optDash v.prerelease := by
    intro hmem
    rcases List.mem_append.mp hmem with hm1 | hm1
    · exact plus_not_mem_coreChars v hm1
    · exact plus_not_mem_optDash hpre hm1
  have hbs : buildSplit v.toChars = (coreChars v ++ optDash v.prerelease, v.build) := by
    cases hb : v.build with
    | some b =>
        unfold buildSplit
        rw [htc, hb, show optPlus (some b) = '+' :: b from rfl,
          splitOnce_append '+' _ b hplusX]
    | none =>
        unfold buildSplit
        rw [htc, hb, show optPlus none = [] from rfl, List.append_nil,
          splitOnce_not_mem '+' _ hplusX]
  have hps : preSplit (coreChars v ++ optDash v.prerelease) = (coreChars v, v.prerelease) := by
    cases hpo : v.prerelease with
    | some p =>
        unfold preSplit
        rw [show optDash (some p) = '-' :: p from rfl,
          splitOnce_append '-' _ p (dash_not_mem_coreChars v)]
    | none =>
        unfold preSplit
        rw [show optDash none = [] from rfl, List.append_nil,
          splitOnce_not_mem '-' _ (dash_not_mem_coreChars v)]
  have hsplit : splitAll '.' (coreChars v) =
      [natToDec v.major, natToDec v.minor, natToDec v.patch] := by
    unfold coreChars
    exact splitAll_three '.' _ _ _ (dot_not_mem_natToDec _) (dot_not_mem_natToDec _)
      (dot_not_mem_natToDec _)
  unfold Version.parse
  rw [htrim, hbs]
  dsimp only
  rw [hps]
  dsimp only
  unfold parseCore
  rw [hsplit]
  dsimp only
  rw [parseU64_natToDec hM, parseU64_natToDec hm, parseU64_natToDec hp]

/-! ### CAS store lemmas -/

theorem alookup_aupdate_self {κ β : Type} [DecidableEq κ] (k : κ) (v : β) :
    ∀ l : List (κ × β), alookup k (aupdate k v l) = some v := by
  intro l
  induction l with
  | nil => simp [aupdate, alookup]
  | cons p rest ih =>
      obtain ⟨k', v'⟩ := p
      by_cases hk : k = k'
      · simp [aupdate, alookup, hk]
      · simp only [aupdate, if_neg hk, alookup]
        exact ih

theorem store_snd {κ : Type} [DecidableEq κ] (hashFn : List Nat → κ) (now : Int)
    (s : CasState κ) (B : List Nat) : (CasStore.store hashFn now s B).2 = hashFn B := by
  unfold CasStore.store
  dsimp only
  cases halk : alookup (hashFn B) s.files with
  | none => rfl
  | some c =>
      cases hgi : casIndexGet now s.index (hashFn B) with
      | mk fst idx1 => cases fst <;> rfl

theorem store_files_exists {κ : Type} [DecidableEq κ] (hashFn : List Nat → κ)
    (now : Int) (s : CasState κ) (B C : List Nat)
    (h : alookup (hashFn B) s.files = some C) :
    (CasStore.store hashFn now s B).1.files = s.files := by
  unfold CasStore.store
  dsimp only
  rw [h]
  cases hgi : casIndexGet now s.index (hashFn B) with
  | mk fst idx1 => cases fst <;> rfl

theorem store_files_fresh {κ : Type} [DecidableEq κ] (hashFn : List Nat → κ)
    (now : Int) (s : CasState κ) (B : List Nat)
    (h : alookup (hashFn B) s.files = none) :
    (CasStore.store hashFn now s B).1.files = aupdate (hashFn B) B s.files := by
  unfold CasStore.store
  dsimp only
  rw [h]

theorem get_fst {κ : Type} [DecidableEq κ] (now : Int) (s : CasState κ) (k : κ)
    (C : List Nat) (h : alookup k s.files = some C) :
    (CasStore.get now s k).1 = .ok C := by
  unfold CasStore.get
  rw [h]
  cases hgi : casIndexGet now s.index k with
  | mk fst idx1 => cases fst <;> rfl

theorem verify_fst {κ : Type} [DecidableEq κ] (hashFn : List Nat → κ) (now : Int)
    (s : CasState κ) (k : κ) (C : List Nat) (h : alookup k s.files = some C) :
    (CasStore.verify hashFn now s k).1 = .ok (decide (hashFn C = k)) := by
  unfold CasStore.verify
  cases hg : CasStore.get now s k with
  | mk r s' =>
      have hr : r = .ok C := by
        have := get_fst now s k C h
        rw [hg] at this
        exact this
      subst hr
      rfl

/-! ### Claim C1 -/

/-- C1: for every byte sequence `B`, `store(B)` returns the content hash
`compute_hash(B)`; a later `get` of that hash (with no external mutation)
returns exactly `B`; `verify` returns `true`; and a second `store(B)` returns
the same hash without rewriting the blob file (the file map is unchanged).
The hypothesis rules out a hash collision at `B`'s key — on any store state
reachable through `store` alone it holds automatically for a collision-free
hash, and the spec assumes collision resistance. -/
theorem cas_store_get_verify_idempotent {κ : Type} [DecidableEq κ]
    (hashFn : List Nat → κ) (now t1 t2 t3 : Int) (s : CasState κ) (B : List Nat)
    (hcoll : alookup (hashFn B) s.files = none ∨ alookup (hashFn B) s.files = some B) :
    (CasStore.store hashFn now s B).2 = hashFn B ∧
      (CasStore.get t1 (CasStore.store hashFn now s B).1 (hashFn B)).1 = .ok B ∧
      (CasStore.verify hashFn t2 (CasStore.store hashFn now s B).1 (hashFn B)).1 =
        .ok true ∧
      (CasStore.store hashFn t3 (CasStore.store hashFn now s B).1 B).2 = hashFn B ∧
      (CasStore.store hashFn t3 (CasStore.store hashFn now s B).1 B).1.files =
        (CasStore.store hashFn now s B).1.files := by
  have hlook : alookup (hashFn B) (CasStore.store hashFn now s B).1.files = some B := by
    rcases hcoll with hnone | hsome
    · rw [store_files_fresh hashFn now s B hnone]
      exact alookup_aupdate_self (hashFn B) B s.files
    · rw [store_files_exists hashFn now s B B hsome]
      exact hsome
  refine ⟨store_snd hashFn now s B, get_fst t1 _ _ B hlook, ?_, ?_, ?_⟩
  · rw [verify_fst hashFn t2 _ _ B hlook]
    simp
  · exact store_snd hashFn t3 _ B
  · exact store_files_exists hashFn t3 _ B B hlook

/-- Witness for C1: identity hash on byte lists, fresh store, `B = [1,2,3]`. -/
theorem cas_store_get_verify_idempotent_witness :
    (CasStore.store (fun l => l) 5 (emptyCas (List Nat)) [1, 2, 3]).2 = [1, 2, 3] ∧
      (CasStore.get 6 (CasStore.store (fun l => l) 5 (emptyCas (List Nat)) [1, 2, 3]).1
        [1, 2, 3]).1 = .ok [1, 2, 3] ∧
      (CasStore.verify (fun l => l) 7
        (CasStore.store (fun l => l) 5 (emptyCas (List Nat)) [1, 2, 3]).1
        [1, 2, 3]).1 = .ok true ∧
      (CasStore.store (fun l => l) 8
        (CasStore.store (fun l => l) 5 (emptyCas (List Nat)) [1, 2, 3]).1 [1, 2, 3]).2 =
        [1, 2, 3] ∧
      (CasStore.store (fun l => l) 8
        (CasStore.store (fun l => l) 5 (emptyCas (List Nat)) [1, 2, 3]).1
          [1, 2, 3]).1.files =
        (CasStore.store (fun l => l) 5 (emptyCas (List Nat)) [1, 2, 3]).1.files :=
  cas_store_get_verify_idempotent (fun l => l) 5 6 7 8 (emptyCas (List Nat)) [1, 2, 3]
    (Or.inl rfl)

/-! ### Claim C2 -/

/-- C2 (code bug): at epoch second `10^9` with `max_age_days = 0`, the entry
stored at epoch 0 is far older than the threshold and no live set exists
(`garbage_collect` takes none), yet `garbage_collect` removes nothing and
frees nothing, and the state is unchanged — `find_unreferenced_entries` is a
`TODO` stub returning the empty list. -/
theorem garbage_collect_stub_noop :
    (CasStore.garbageCollect 1000000000 0 gcStaleState).1 = ⟨0, 0⟩ ∧
      (CasStore.garbageCollect 1000000000 0 gcStaleState).2 = gcStaleState ∧
      alookup [7] gcStaleState.files = some [1, 2, 3] ∧
      alookup [7] gcStaleState.index = some ⟨[7], 3, 0, 0⟩ ∧
      (0 : Int) < 1000000000 - 0 * 24 * 60 * 60 := by
  refine ⟨rfl, rfl, rfl, rfl, by decide⟩

/-! ### Tarball extraction lemmas -/

theorem pushComponents_error_kind :
    ∀ (p : List PathComponent) (sp : List String) (e : PeaErrorKind),
      pushComponents p sp = .error e → e = .integrityFailure := by
  intro p
  induction p with
  | nil => intro sp e h; exact absurd h (by simp [pushComponents])
  | cons c rest ih =>
      intro sp e h
      cases c with
      | normal name => exact ih (sp ++ [name]) e h
      | parentDir => exact (Except.error.inj h).symm
      | rootDir => exact (Except.error.inj h).symm
      | curDir => exact ih sp e h

theorem pushComponents_traversal :
    ∀ (p : List PathComponent) (sp : List String),
      (PathComponent.parentDir ∈ p ∨ PathComponent.rootDir ∈ p) →
      pushComponents p sp = .error .integrityFailure := by
  intro p
  induction p with
  | nil =>
      intro sp h
      rcases h with h | h <;> exact absurd h (List.not_mem_nil _)
  | cons c rest ih =>
      intro sp h
      cases c with
      | normal name =>
          apply ih (sp ++ [name])
          rcases h with h | h
          · rcases List.mem_cons.mp h with h' | h'
            · exact absurd h' (by simp)
            · exact Or.inl h'
          · rcases List.mem_cons.mp h with h' | h'
            · exact absurd h' (by simp)
            · exact Or.inr h'
      | parentDir => rfl
      | rootDir => rfl
      | curDir =>
          apply ih sp
          rcases h with h | h
          · rcases List.mem_cons.mp h with h' | h'
            · exact absurd h' (by simp)
            · exact Or.inl h'
          · rcases List.mem_cons.mp h with h' | h'
            · exact absurd h' (by simp)
            · exact Or.inr h'

theorem validateExtractPath_traversal {p : List PathComponent} (destDir : List String)
    (h : PathComponent.parentDir ∈ p ∨ PathComponent.rootDir ∈ p) :
    validateExtractPath p destDir = .error .integrityFailure := by
  unfold validateExtractPath
  rw [pushComponents_traversal p destDir h]

theorem validateExtractPath_error_kind {p : List PathComponent}
    {destDir : List String} {e : PeaErrorKind}
    (h : validateExtractPath p destDir = .error e) : e = .integrityFailure := by
  unfold validateExtractPath at h
  cases hpc : pushComponents p destDir with
  | error e' =>
      rw [hpc] at h
      dsimp only at h
      rw [← Except.error.inj h]
      exact pushComponents_error_kind p destDir e' hpc
  | ok sp =>
      rw [hpc] at h
      dsimp only at h
      by_cases hpre : destDir.isPrefixOf sp = true
      · rw [if_pos hpre] at h
        exact absurd h (by simp)
      · rw [if_neg hpre] at h
        exact (Except.error.inj h).symm

theorem validateExtractPath_ok_prefix {p : List PathComponent}
    {destDir res : List String} (h : validateExtractPath p destDir = .ok res) :
    destDir <+: res := by
  unfold validateExtractPath at h
  cases hpc : pushComponents p destDir with
  | error e =>
      rw [hpc] at h
      dsimp only at h
      exact absurd h (by simp)
  | ok sp =>
      rw [hpc] at h
      dsimp only at h
      by_cases hpre : destDir.isPrefixOf sp = true
      · rw [if_pos hpre] at h
        obtain rfl := Except.ok.inj h
        exact List.isPrefixOf_iff_prefix.mp hpre
      · rw [if_neg hpre] at h
        exact absurd h (by simp)

theorem extractSymlink_error_kind {t : Option (List PathComponent)}
    {destPath destDir : List String} {e : PeaErrorKind}
    (h : extractSymlink t destPath destDir = .error e) : e = .integrityFailure := by
  unfold extractSymlink at h
  cases t with
  | none => exact absurd h (by simp)
  | some target =>
      dsimp only at h
      by_cases habs : isAbsolutePath target = true
      · rw [if_pos habs] at h
        exact (Except.error.inj h).symm
      · rw [if_neg habs] at h
        split at h
        · split at h
          · exact absurd h (by simp)
          · exact (Except.error.inj h).symm
        · split at h
          · exact absurd h (by simp)
          · exact (Except.error.inj h).symm

theorem extractSymlink_ok_action {t : Option (List PathComponent)}
    {destPath destDir : List String} {a : FsAction}
    (h : extractSymlink t destPath destDir = .ok (some a)) :
    ∃ target, a = FsAction.makeLink destPath target := by
  unfold extractSymlink at h
  cases t with
  | none => exact absurd h (by simp)
  | some target =>
      dsimp only at h
      by_cases habs : isAbsolutePath target = true
      · rw [if_pos habs] at h
        exact absurd h (by simp)
      · rw [if_neg habs] at h
        split at h
        · split at h
          · exact ⟨target, (Option.some.inj (Except.ok.inj h)).symm⟩
          · exact absurd h (by simp)
        · split at h
          · exact ⟨target, (Option.some.inj (Except.ok.inj h)).symm⟩
          · exact absurd h (by simp)

theorem extractEntry_error_kind {e : TarEntry} {destDir : List String}
    {err : PeaErrorKind} (h : extractEntry e destDir = .error err) :
    err = .integrityFailure := by
  obtain ⟨pth, ety, cont, ltg⟩ := e
  unfold extractEntry at h
  dsimp only at h
  cases hv : validateExtractPath pth destDir with
  | error e' =>
      rw [hv] at h
      dsimp only at h
      rw [← Except.error.inj h]
      exact validateExtractPath_error_kind hv
  | ok sp =>
      rw [hv] at h
      dsimp only at h
      cases ety with
      | regular => exact absurd h (by simp)
      | directory => exact absurd h (by simp)
      | symlink =>
          dsimp only at h
          cases hs : extractSymlink ltg sp destDir with
          | error e' =>
              rw [hs] at h
              dsimp only at h
              rw [← Except.error.inj h]
              exact extractSymlink_error_kind hs
          | ok a =>
              rw [hs] at h
              cases a <;> exact absurd h (by simp)
      | hardlink =>
          dsimp only at h
          cases hs : extractSymlink ltg sp destDir with
          | error e' =>
              rw [hs] at h
              dsimp only at h
              rw [← Except.error.inj h]
              exact extractSymlink_error_kind hs
          | ok a =>
              rw [hs] at h
              cases a <;> exact absurd h (by simp)
      | other => exact absurd h (by simp)

theorem extractEntry_traversal (e : TarEntry) (destDir : List String)
    (h : PathComponent.parentDir ∈ e.path ∨ PathComponent.rootDir ∈ e.path) :
    extractEntry e destDir = .error .integrityFailure := by
  unfold extractEntry
  rw [validateExtractPath_traversal destDir h]

theorem extractEntry_ok_prefix {e : TarEntry} {destDir : List String}
    {acts : List FsAction} (h : extractEntry e destDir = .ok acts) :
    ∀ a ∈ acts, destDir <+: actionPath a := by
  obtain ⟨pth, ety, cont, ltg⟩ := e
  unfold extractEntry at h
  dsimp only at h
  cases hv : validateExtractPath pth destDir with
  | error e' =>
      rw [hv] at h
      dsimp only at h
      exact absurd h (by simp)
  | ok sp =>
      rw [hv] at h
      dsimp only at h
      have hpre : destDir <+: sp := validateExtractPath_ok_prefix hv
      cases ety with
      | regular =>
          obtain rfl := Except.ok.inj h
          intro a ha
          rcases List.mem_singleton.mp ha with rfl
          exact hpre
      | directory =>
          obtain rfl := Except.ok.inj h
          intro a ha
          rcases List.mem_singleton.mp ha with rfl
          exact hpre
      | symlink =>
          dsimp only at h
          cases hs : extractSymlink ltg sp destDir with
          | error e' =>
              rw [hs] at h
              exact absurd h (by simp)
          | ok a =>
              rw [hs] at h
              cases a with
              | none =>
                  obtain rfl := Except.ok.inj h
                  intro a ha
                  exact absurd ha (List.not_mem_nil a)
              | some act =>
                  obtain rfl := Except.ok.inj h
                  intro a ha
                  rcases List.mem_singleton.mp ha with rfl
                  obtain ⟨target, rfl⟩ := extractSymlink_ok_action hs
                  exact hpre
      | hardlink =>
          dsimp only at h
          cases hs : extractSymlink ltg sp destDir with
          | error e' =>
              rw [hs] at h
              exact absurd h (by simp)
          | ok a =>
              rw [hs] at h
              cases a with
              | none =>
                  obtain rfl := Except.ok.inj h
                  intro a ha
                  exact absurd ha (List.not_mem_nil a)
              | some act =>
                  obtain rfl := Except.ok.inj h
                  intro a ha
                  rcases List.mem_singleton.mp ha with rfl
                  obtain ⟨target, rfl⟩ := extractSymlink_ok_action hs
                  exact hpre
      | other =>
          obtain rfl := Except.ok.inj h
          intro a ha
          exact absurd ha (List.not_mem_nil a)

theorem extractFold_all_ok {destDir : List String} :
    ∀ (entries : List TarEntry) (acc : List FsAction × Option PeaErrorKind),
      (entries.foldl (extractStep destDir) acc).2 = none →
      acc.2 = none ∧ ∀ e ∈ entries, ∃ acts, extractEntry e destDir = .ok acts := by
  intro entries
  induction entries with
  | nil => intro acc h; exact ⟨h, fun e he => absurd he (List.not_mem_nil e)⟩
  | cons e rest ih =>
      intro acc h
      rw [List.foldl_cons] at h
      obtain ⟨hstep, hrest⟩ := ih (extractStep destDir acc e) h
      have hsplit : acc.2 = none ∧ ∃ acts, extractEntry e destDir = .ok acts := by
        cases hacc : acc.2 with
        | some err =>
            unfold extractStep at hstep
            rw [hacc] at hstep
            dsimp only at hstep
            rw [hacc] at hstep
            exact absurd hstep (by simp)
        | none =>
            unfold extractStep at hstep
            rw [hacc] at hstep
            cases hee : extractEntry e destDir with
            | error err =>
                rw [hee] at hstep
                dsimp only at hstep
                exact absurd hstep (by simp)
            | ok acts => exact ⟨rfl, acts, rfl⟩
      refine ⟨hsplit.1, fun e' he' => ?_⟩
      rcases List.mem_cons.mp he' with rfl | he'
      · exact hsplit.2
      · exact hrest e' he'

theorem extractFold_error_kind {destDir : List String} :
    ∀ (entries : List TarEntry) (acc : List FsAction × Option PeaErrorKind),
      (acc.2 = none ∨ acc.2 = some .integrityFailure) →
      ((entries.foldl (extractStep destDir) acc).2 = none ∨
        (entries.foldl (extractStep destDir) acc).2 = some .integrityFailure) := by
  intro entries
  induction entries with
  | nil => intro acc h; exact h
  | cons e rest ih =>
      intro acc h
      rw [List.foldl_cons]
      apply ih
      rcases h with h | h
      · unfold extractStep
        rw [h]
        cases hee : extractEntry e destDir with
        | error err =>
            right
            dsimp only
            rw [extractEntry_error_kind hee]
        | ok acts =>
            left
            rfl
      · unfold extractStep
        rw [h]
        right
        exact h

theorem extractFold_prefix {destDir : List String} :
    ∀ (entries : List TarEntry) (acc : List FsAction × Option PeaErrorKind),
      (∀ a ∈ acc.1, destDir <+: actionPath a) →
      ∀ a ∈ (entries.foldl (extractStep destDir) acc).1, destDir <+: actionPath a := by
  intro entries
  induction entries with
  | nil => intro acc h; exact h
  | cons e rest ih =>
      intro acc h
      rw [List.foldl_cons]
      apply ih
      cases hacc : acc.2 with
      | some err =>
          unfold extractStep
          rw [hacc]
          exact h
      | none =>
          unfold extractStep
          rw [hacc]
          cases hee : extractEntry e destDir with
          | error err => exact h
          | ok acts =>
              dsimp only
              intro a ha
              rcases List.mem_append.mp ha with ha | ha
              · exact h a ha
              · exact extractEntry_ok_prefix hee a ha

/-! ### Claim C3 -/

/-- C3: whenever some archive entry's path contains a `..` (ParentDir) or a
root component, extraction fails with `IntegrityFailure`, and every
filesystem action performed lies inside the destination root. -/
theorem extract_rejects_traversal (entries : List TarEntry) (destDir : List String)
    (e : TarEntry) (he : e ∈ entries)
    (hbad : PathComponent.parentDir ∈ e.path ∨ PathComponent.rootDir ∈ e.path) :
    (extractTarball entries destDir).2 = some .integrityFailure ∧
      ∀ a ∈ (extractTarball entries destDir).1, destDir <+: actionPath a := by
  constructor
  · rcases extractFold_error_kind entries ([FsAction.mkdir destDir], none)
        (Or.inl rfl) with hres | hres
    · obtain ⟨_, hall⟩ := extractFold_all_ok entries ([FsAction.mkdir destDir], none) hres
      obtain ⟨acts, hacts⟩ := hall e he
      rw [extractEntry_traversal e destDir hbad] at hacts
      exact absurd hacts (by simp)
    · exact hres
  · apply extractFold_prefix entries ([FsAction.mkdir destDir], none)
    intro a ha
    rcases List.mem_singleton.mp ha with rfl
    exact List.prefix_refl destDir

/-- Witness for C3 at the entry `safe/../../etc/passwd`. -/
theorem extract_rejects_traversal_witness :
    (extractTarball [traversalEntry] ["dest"]).2 = some .integrityFailure ∧
      ["dest"] <+: actionPath (FsAction.mkdir ["dest"]) :=
  ⟨(extract_rejects_traversal [traversalEntry] ["dest"] traversalEntry (by decide)
      (by decide)).1,
    (extract_rejects_traversal [traversalEntry] ["dest"] traversalEntry (by decide)
      (by decide)).2 (FsAction.mkdir ["dest"]) (by decide)⟩

/-! ### Claim C4 -/

/-- C4 (code bug): extracting a symlink whose relative target climbs out of
the destination with `..` SUCCEEDS (no `IntegrityFailure`) and creates the
link, because `extract_symlink` checks the unnormalized joined path with the
syntactic `Path::starts_with`; the created link at `dest/link` resolves to
`evil`, outside the destination root `dest`. -/
theorem symlink_escape_accepted :
    (extractTarball [escapeLinkEntry] ["dest"]).2 = none ∧
      (extractTarball [escapeLinkEntry] ["dest"]).1 =
        [.mkdir ["dest"], .makeLink ["dest", "link"] [.parentDir, .normal "evil"]] ∧
      resolveRel (["dest", "link"].dropLast) [.parentDir, .normal "evil"] =
        some ["evil"] ∧
      ¬ (["dest"] <+: ["evil"]) := by
  refine ⟨rfl, rfl, rfl, ?_⟩
  decide

/-! ### Claim C5 -/

/-- C5: `should_include_dependency` includes an optional dependency under an
enabled-feature set exactly when the set contains the dependency's name, and
always includes a non-optional dependency (with or without a feature set). -/
theorem should_include_dependency_gating (depName : String) (features : List String) :
    (shouldIncludeDependency depName true (some features) = true ↔ depName ∈ features) ∧
      ∀ enabledFeatures, shouldIncludeDependency depName false enabledFeatures = true := by
  constructor
  · unfold shouldIncludeDependency
    simp
  · intro enabledFeatures
    rfl

/-! ### Claim C8 -/

/-- C8: for every valid version literal, displaying the parsed version and
reparsing yields the same `Version` — major, minor, patch, prerelease and
build metadata are preserved exactly. -/
theorem version_parse_display_roundtrip {s : List Char} {v : Version}
    (h : Version.parse s = .ok v) :
    Version.parse (Version.toChars v) = .ok v :=
  wellFormed_parse (parse_ok_wellFormed h)

/-- Witness for C8 at the literal `1.2.3-alpha.1+build.7`. -/
theorem version_parse_display_roundtrip_witness :
    Version.parse "1.2.3-alpha.1+build.7".toList =
        .ok ⟨1, 2, 3, some "alpha.1".toList, some "build.7".toList⟩ ∧
      Version.parse (Version.toChars ⟨1, 2, 3, some "alpha.1".toList, some "build.7".toList⟩) =
        .ok ⟨1, 2, 3, some "alpha.1".toList, some "build.7".toList⟩ :=
  ⟨by decide, version_parse_display_roundtrip
    (show Version.parse "1.2.3-alpha.1+build.7".toList =
        .ok ⟨1, 2, 3, some "alpha.1".toList, some "build.7".toList⟩ by decide)⟩

/-! ### Ordering lemmas for `precedence_cmp` -/

theorem then_eq_iff {o1 o2 : Ordering} : o1.then o2 = .eq ↔ o1 = .eq ∧ o2 = .eq := by
  cases o1 <;> simp [Ordering.then]

theorem then_lt_iff {o1 o2 : Ordering} :
    o1.then o2 = .lt ↔ o1 = .lt ∨ (o1 = .eq ∧ o2 = .lt) := by
  cases o1 <;> simp [Ordering.then]

theorem then_swap (o1 o2 : Ordering) : (o1.then o2).swap = o1.swap.then o2.swap := by
  cases o1 <;> cases o2 <;> rfl

theorem cmpNat_eq_iff {a b : Nat} : cmpNat a b = .eq ↔ a = b := by
  unfold cmpNat
  split_ifs with h1 h2 <;> simp_all
  omega

theorem cmpNat_lt_iff {a b : Nat} : cmpNat a b = .lt ↔ a < b := by
  unfold cmpNat
  split_ifs with h1 h2 <;> simp_all

theorem cmpNat_gt_iff {a b : Nat} : cmpNat a b = .gt ↔ b < a := by
  unfold cmpNat
  split_ifs with h1 h2 <;> simp_all <;> omega

theorem cmpNat_swap (a b : Nat) : cmpNat b a = (cmpNat a b).swap := by
  rcases lt_trichotomy a b with h | h | h
  · rw [show cmpNat a b = Ordering.lt from cmpNat_lt_iff.mpr h,
      show cmpNat b a = Ordering.gt from cmpNat_gt_iff.mpr h]
    rfl
  · subst h
    rw [show cmpNat a a = Ordering.eq from cmpNat_eq_iff.mpr rfl]
    rfl
  · rw [show cmpNat a b = Ordering.gt from cmpNat_gt_iff.mpr h,
      show cmpNat b a = Ordering.lt from cmpNat_lt_iff.mpr h]
    rfl

theorem char_toNat_inj {a b : Char} (h : a.toNat = b.toNat) : a = b := by
  apply Char.eq_of_val_eq
  apply UInt32.eq_of_toBitVec_eq
  apply BitVec.eq_of_toNat_eq
  exact h

theorem cmpList_eq_iff : ∀ {a b : List Char}, cmpList a b = .eq ↔ a = b := by
  intro a
  induction a with
  | nil =>
      intro b
      cases b with
      | nil => exact ⟨fun _ => rfl, fun _ => rfl⟩
      | cons y ys =>
          simp only [cmpList]
          exact ⟨fun h => Ordering.noConfusion h, fun h => List.noConfusion h⟩
  | cons x xs ih =>
      intro b
      cases b with
      | nil =>
          simp only [cmpList]
          exact ⟨fun h => Ordering.noConfusion h, fun h => List.noConfusion h⟩
      | cons y ys =>
          simp only [cmpList, then_eq_iff, cmpNat_eq_iff, ih, List.cons.injEq]
          constructor
          · rintro ⟨h1, h2⟩
            exact ⟨char_toNat_inj h1, h2⟩
          · rintro ⟨rfl, rfl⟩
            exact ⟨rfl, rfl⟩

theorem cmpList_swap : ∀ a b : List Char, cmpList b a = (cmpList a b).swap := by
  intro a
  induction a with
  | nil => intro b; cases b <;> rfl
  | cons x xs ih =>
      intro b
      cases b with
      | nil => rfl
      | cons y ys =>
          rw [show cmpList (y :: ys) (x :: xs) =
              (cmpNat y.toNat x.toNat).then (cmpList ys xs) from rfl,
            show cmpList (x :: xs) (y :: ys) =
              (cmpNat x.toNat y.toNat).then (cmpList xs ys) from rfl,
            cmpNat_swap x.toNat y.toNat, ih ys, ← then_swap]

theorem cmpList_lt_trans :
    ∀ {a b c : List Char}, cmpList a b = .lt → cmpList b c = .lt → cmpList a c = .lt := by
  intro a
  induction a with
  | nil =>
      intro b c h1 h2
      cases b with
      | nil => exact absurd h1 (by simp [cmpList])
      | cons y ys =>
          cases c with
          | nil => exact absurd h2 (by simp [cmpList])
          | cons z zs => simp [cmpList]
  | cons x xs ih =>
      intro b c h1 h2
      cases b with
      | nil => exact absurd h1 (by simp [cmpList])
      | cons y ys =>
          cases c with
          | nil => exact absurd h2 (by simp [cmpList])
          | cons z zs =>
              simp only [cmpList, then_lt_iff, cmpNat_lt_iff, cmpNat_eq_iff] at h1 h2 ⊢
              rcases h1 with h1 | ⟨e1, h1⟩
              · rcases h2 with h2 | ⟨e2, h2⟩
                · exact Or.inl (lt_trans h1 h2)
                · exact Or.inl (by omega)
              · rcases h2 with h2 | ⟨e2, h2⟩
                · exact Or.inl (by omega)
                · exact Or.inr ⟨by omega, ih h1 h2⟩

theorem cmpPre_eq_iff : ∀ {p q : Option (List Char)}, cmpPre p q = .eq ↔ p = q := by
  intro p q
  cases p <;> cases q <;> simp [cmpPre, cmpList_eq_iff]

theorem cmpPre_swap : ∀ p q : Option (List Char), cmpPre q p = (cmpPre p q).swap := by
  intro p q
  cases p with
  | none =>
      cases q with
      | none => rfl
      | some b => rfl
  | some a =>
      cases q with
      | none => rfl
      | some b => exact cmpList_swap a b

theorem cmpPre_lt_trans : ∀ {p q r : Option (List Char)},
    cmpPre p q = .lt → cmpPre q r = .lt → cmpPre p r = .lt := by
  intro p q r h1 h2
  cases p with
  | none =>
      cases q with
      | none => exact absurd h1 (by simp [cmpPre])
      | some b => exact absurd h1 (by simp [cmpPre])
  | some a =>
      cases q with
      | none => exact absurd h2 (by cases r <;> simp [cmpPre])
      | some b =>
          cases r with
          | none => rfl
          | some c => exact cmpList_lt_trans h1 h2

theorem pc_eq_iff {a b : Version} :
    Version.precedenceCmp a b = .eq ↔
      (a.major = b.major ∧ a.minor = b.minor ∧ a.patch = b.patch ∧
        a.prerelease = b.prerelease) := by
  unfold Version.precedenceCmp
  rw [then_eq_iff, then_eq_iff, then_eq_iff, cmpNat_eq_iff, cmpNat_eq_iff,
    cmpNat_eq_iff, cmpPre_eq_iff]
  tauto

theorem pc_swap (a b : Version) :
    Version.precedenceCmp b a = (Version.precedenceCmp a b).swap := by
  unfold Version.precedenceCmp
  rw [cmpNat_swap a.major b.major, cmpNat_swap a.minor b.minor,
    cmpNat_swap a.patch b.patch, cmpPre_swap a.prerelease b.prerelease,
    ← then_swap, ← then_swap, ← then_swap]

theorem pc_lt_iff {a b : Version} :
    Version.precedenceCmp a b = .lt ↔
      (a.major < b.major ∨ (a.major = b.major ∧
        (a.minor < b.minor ∨ (a.minor = b.minor ∧
          (a.patch < b.patch ∨ (a.patch = b.patch ∧
            cmpPre a.prerelease b.prerelease = .lt)))))) := by
  unfold Version.precedenceCmp
  rw [then_lt_iff, then_lt_iff, then_lt_iff, then_eq_iff, then_eq_iff,
    cmpNat_lt_iff, cmpNat_eq_iff, cmpNat_lt_iff, cmpNat_eq_iff, cmpNat_lt_iff,
    cmpNat_eq_iff]
  tauto

theorem precLt_trans {a b c : Version} (h1 : precLt a b) (h2 : precLt b c) :
    precLt a c := by
  unfold precLt at h1 h2 ⊢
  rw [pc_lt_iff] at h1 h2 ⊢
  rcases h1 with h1 | ⟨e1a, h1⟩
  · rcases h2 with h2 | ⟨e2a, h2⟩
    · exact Or.inl (lt_trans h1 h2)
    · exact Or.inl (by omega)
  · rcases h2 with h2 | ⟨e2a, h2⟩
    · exact Or.inl (by omega)
    · refine Or.inr ⟨by omega, ?_⟩
      rcases h1 with h1 | ⟨e1b, h1⟩
      · rcases h2 with h2 | ⟨e2b, h2⟩
        · exact Or.inl (lt_trans h1 h2)
        · exact Or.inl (by omega)
      · rcases h2 with h2 | ⟨e2b, h2⟩
        · exact Or.inl (by omega)
        · refine Or.inr ⟨by omega, ?_⟩
          rcases h1 with h1 | ⟨e1c, h1⟩
          · rcases h2 with h2 | ⟨e2c, h2⟩
            · exact Or.inl (lt_trans h1 h2)
            · exact Or.inl (by omega)
          · rcases h2 with h2 | ⟨e2c, h2⟩
            · exact Or.inl (by omega)
            · exact Or.inr ⟨by omega, cmpPre_lt_trans h1 h2⟩

/-! ### BTreeSet model lemmas -/

theorem btreeInsert_mem {v w : Version} :
    ∀ {l : List Version}, w ∈ btreeInsert v l → w = v ∨ w ∈ l := by
  intro l
  induction l with
  | nil =>
      intro h
      rcases List.mem_singleton.mp h with rfl
      exact Or.inl rfl
  | cons x xs ih =>
      intro h
      unfold btreeInsert at h
      cases hc : Version.precedenceCmp v x with
      | lt =>
          rw [hc] at h
          rcases List.mem_cons.mp h with rfl | h
          · exact Or.inl rfl
          · exact Or.inr h
      | eq =>
          rw [hc] at h
          exact Or.inr h
      | gt =>
          rw [hc] at h
          rcases List.mem_cons.mp h with rfl | h
          · exact Or.inr (List.mem_cons_self _ _)
          · rcases ih h with h' | h'
            · exact Or.inl h'
            · exact Or.inr (List.mem_cons_of_mem _ h')

theorem btreeInsert_pairwise {v : Version} :
    ∀ {l : List Version}, l.Pairwise precLt → (btreeInsert v l).Pairwise precLt := by
  intro l
  induction l with
  | nil => intro _; simp [btreeInsert]
  | cons x xs ih =>
      intro h
      obtain ⟨hx, hxs⟩ := List.pairwise_cons.mp h
      unfold btreeInsert
      cases hc : Version.precedenceCmp v x with
      | lt =>
          apply List.pairwise_cons.mpr
          refine ⟨?_, h⟩
          intro y hy
          rcases List.mem_cons.mp hy with rfl | hy
          · exact hc
          · exact precLt_trans hc (hx y hy)
      | eq => exact h
      | gt =>
          apply List.pairwise_cons.mpr
          refine ⟨?_, ih hxs⟩
          intro y hy
          rcases btreeInsert_mem hy with rfl | hy
          · show Version.precedenceCmp x y = .lt
            have := pc_swap y x
            rw [hc] at this
            exact this
          · exact hx y hy

theorem foldl_btreeInsert_pairwise :
    ∀ (vs acc : List Version), acc.Pairwise precLt →
      (vs.foldl (fun a v => btreeInsert v a) acc).Pairwise precLt := by
  intro vs
  induction vs with
  | nil => intro acc h; exact h
  | cons v rest ih =>
      intro acc h
      rw [List.foldl_cons]
      exact ih (btreeInsert v acc) (btreeInsert_pairwise h)

theorem pairwise_rel_or {a b : Version} :
    ∀ {l : List Version}, l.Pairwise precLt → a ∈ l → b ∈ l → a ≠ b →
      precLt a b ∨ precLt b a := by
  intro l
  induction l with
  | nil => intro _ ha _ _; exact absurd ha (List.not_mem_nil a)
  | cons x xs ih =>
      intro h ha hb hne
      obtain ⟨hx, hxs⟩ := List.pairwise_cons.mp h
      rcases List.mem_cons.mp ha with ha1 | ha2
      · rcases List.mem_cons.mp hb with hb1 | hb2
        · exact absurd (ha1.trans hb1.symm) hne
        · left
          rw [ha1]
          exact hx b hb2
      · rcases List.mem_cons.mp hb with hb1 | hb2
        · right
          rw [hb1]
          exact hx a ha2
        · exact ih hxs ha2 hb2 hne

/-! ### Claim C6 -/

/-- C6 counterexample: with available versions `1.0.0` and `2.0.0` and the
wildcard requirement, `find_matching` returns `[1.0.0, 2.0.0]` — the
strictly lower version first — not the highest-to-lowest order
`[2.0.0, 1.0.0]` the claim states. -/
theorem find_matching_not_descending :
    VersionSelector.findMatching
        (VersionSelector.new [⟨1, 0, 0, none, none⟩, ⟨2, 0, 0, none, none⟩])
        ⟨[⟨.wildcard, ⟨0, none, none, none⟩⟩]⟩ =
      [⟨1, 0, 0, none, none⟩, ⟨2, 0, 0, none, none⟩] ∧
    VersionSelector.findMatching
        (VersionSelector.new [⟨1, 0, 0, none, none⟩, ⟨2, 0, 0, none, none⟩])
        ⟨[⟨.wildcard, ⟨0, none, none, none⟩⟩]⟩ ≠
      [⟨2, 0, 0, none, none⟩, ⟨1, 0, 0, none, none⟩] ∧
    Version.precedenceCmp ⟨1, 0, 0, none, none⟩ ⟨2, 0, 0, none, none⟩ = .lt := by
  decide

/-- C6 amended: `find_matching(req)` returns exactly the selector's available
versions satisfying `req`, in ascending precedence order (lowest to highest),
not highest to lowest. -/
theorem find_matching_exact_ascending (vs : List Version) (req : VersionReq) :
    (∀ w, w ∈ VersionSelector.findMatching (VersionSelector.new vs) req ↔
        (w ∈ (VersionSelector.new vs).availableVersions ∧ req.matches w = true)) ∧
      (VersionSelector.findMatching (VersionSelector.new vs) req).Pairwise precLt := by
  constructor
  · intro w
    unfold VersionSelector.findMatching
    simp [List.mem_filter]
  · exact List.Pairwise.filter _
      (foldl_btreeInsert_pairwise vs [] List.Pairwise.nil)

/-! ### Claim C10 -/

/-- C10: two versions agreeing on major, minor, patch and prerelease but
differing in build metadata compare `Equal` under `precedence_cmp` (= `Ord`)
while `==` (derived `PartialEq`) distinguishes them, so the ordering is not
antisymmetric w.r.t. equality; and the selector's `BTreeSet` never holds both
of such a pair. -/
theorem version_build_metadata_ordering (a b : Version)
    (h1 : a.major = b.major) (h2 : a.minor = b.minor) (h3 : a.patch = b.patch)
    (h4 : a.prerelease = b.prerelease) (h5 : a.build ≠ b.build) :
    Version.precedenceCmp a b = .eq ∧ a ≠ b ∧
      ∀ vs : List Version,
        ¬(a ∈ (VersionSelector.new vs).availableVersions ∧
          b ∈ (VersionSelector.new vs).availableVersions) := by
  have heq : Version.precedenceCmp a b = .eq := pc_eq_iff.mpr ⟨h1, h2, h3, h4⟩
  have hne : a ≠ b := fun hab => h5 (by rw [hab])
  refine ⟨heq, hne, ?_⟩
  rintro vs ⟨hma, hmb⟩
  have hp := foldl_btreeInsert_pairwise vs [] List.Pairwise.nil
  rcases pairwise_rel_or hp hma hmb hne with hlt | hlt
  · unfold precLt at hlt
    rw [heq] at hlt
    exact Ordering.noConfusion hlt
  · unfold precLt at hlt
    rw [pc_swap, heq] at hlt
    exact Ordering.noConfusion hlt

/-- Witness for C10 at `1.0.0+x` versus `1.0.0+y`, with the selector built
from exactly that pair. -/
theorem version_build_metadata_ordering_witness :
    Version.precedenceCmp ⟨1, 0, 0, none, some ['x']⟩ ⟨1, 0, 0, none, some ['y']⟩ =
        .eq ∧
      (⟨1, 0, 0, none, some ['x']⟩ : Version) ≠ ⟨1, 0, 0, none, some ['y']⟩ ∧
      ¬((⟨1, 0, 0, none, some ['x']⟩ : Version) ∈
          (VersionSelector.new
            [⟨1, 0, 0, none, some ['x']⟩, ⟨1, 0, 0, none, some ['y']⟩]).availableVersions ∧
        (⟨1, 0, 0, none, some ['y']⟩ : Version) ∈
          (VersionSelector.new
            [⟨1, 0, 0, none, some ['x']⟩, ⟨1, 0, 0, none, some ['y']⟩]).availableVersions) :=
  ⟨(version_build_metadata_ordering ⟨1, 0, 0, none, some ['x']⟩
      ⟨1, 0, 0, none, some ['y']⟩ rfl rfl rfl rfl (by decide)).1,
    (version_build_metadata_ordering ⟨1, 0, 0, none, some ['x']⟩
      ⟨1, 0, 0, none, some ['y']⟩ rfl rfl rfl rfl (by decide)).2.1,
    (version_build_metadata_ordering ⟨1, 0, 0, none, some ['x']⟩
      ⟨1, 0, 0, none, some ['y']⟩ rfl rfl rfl rfl (by decide)).2.2
      [⟨1, 0, 0, none, some ['x']⟩, ⟨1, 0, 0, none, some ['y']⟩]⟩

/-! ### Index persistence lemmas -/

theorem alookup_aupdate_ne {κ β : Type} [DecidableEq κ] {k k' : κ} (v : β)
    (h : k ≠ k') : ∀ l : List (κ × β), alookup k (aupdate k' v l) = alookup k l := by
  intro l
  induction l with
  | nil => simp [aupdate, alookup, h]
  | cons p rest ih =>
      obtain ⟨k0, v0⟩ := p
      by_cases hk : k' = k0
      · subst hk
        simp only [aupdate, if_pos rfl, alookup, if_neg h]
      · simp only [aupdate, if_neg hk, alookup]
        by_cases hkk : k = k0
        · rw [if_pos hkk, if_pos hkk]
        · rw [if_neg hkk, if_neg hkk]
          exact ih

theorem alookup_none_iff {κ β : Type} [DecidableEq κ] (k : κ) :
    ∀ l : List (κ × β), alookup k l = none ↔ k ∉ l.map Prod.fst := by
  intro l
  induction l with
  | nil => simp [alookup]
  | cons p rest ih =>
      obtain ⟨k0, v0⟩ := p
      by_cases hk : k = k0
      · subst hk
        simp [alookup]
      · simp only [alookup, if_neg hk, List.map_cons, List.mem_cons]
        rw [ih]
        constructor
        · intro hn
          intro hmem
          rcases hmem with hmem | hmem
          · exact hk hmem
          · exact hn hmem
        · intro hn hmem
          exact hn (Or.inr hmem)

theorem loadPairs_fold_lookup {κ : Type} [DecidableEq κ] :
    ∀ (ps : List (κ × CacheEntry κ)) (m : IndexState κ) (k : κ),
      (ps.map Prod.fst).Nodup →
      alookup k (ps.foldl (fun m p => aupdate p.1 p.2 m) m) =
        match alookup k ps with
        | some v => some v
        | none => alookup k m := by
  intro ps
  induction ps with
  | nil => intro m k _; rfl
  | cons p rest ih =>
      obtain ⟨k0, v0⟩ := p
      intro m k hnodup
      rw [List.map_cons] at hnodup
      obtain ⟨hk0, hrest⟩ := List.nodup_cons.mp hnodup
      rw [List.foldl_cons]
      rw [ih (aupdate k0 v0 m) k hrest]
      by_cases hk : k = k0
      · subst hk
        have hnone : alookup k rest = none :=
          (alookup_none_iff k rest).mpr hk0
        have hcons : alookup k ((k, v0) :: rest) = some v0 := by
          simp [alookup]
        rw [hnone, hcons]
        dsimp only
        exact alookup_aupdate_self k v0 m
      · have hupd : alookup k (aupdate k0 v0 m) = alookup k m :=
          alookup_aupdate_ne v0 hk m
        have hcons : alookup k ((k0, v0) :: rest) = alookup k rest := by
          simp only [alookup, if_neg hk]
        rw [hupd, hcons]

/-! ### Claim C7 -/

/-- C7 counterexample: `idxBA` and `idxAB` hold equal entries (a permutation,
and the same key-to-entry mapping) yet their saved sequences differ, and
`idxBA`'s saved key sequence is not sorted — `CasIndex::save` serializes in
the map's iteration order without sorting. -/
theorem save_index_unsorted_cex :
    idxBA.Perm idxAB ∧
      alookup "aa" idxBA = alookup "aa" idxAB ∧
      alookup "bb" idxBA = alookup "bb" idxAB ∧
      CasIndex.savePairs idxBA ≠ CasIndex.savePairs idxAB ∧
      (CasIndex.savePairs idxBA).map Prod.fst = ["bb", "aa"] ∧
      cmpList "bb".toList "aa".toList = .gt := by
  refine ⟨by decide, rfl, rfl, by decide, rfl, by decide⟩

/-- C7 amended: `save_index` serializes the index as the sequence of
`(key, entry)` pairs in the map's iteration order — unsorted, so equal entry
sets need not produce identical output — and reloading the saved sequence
reconstructs the same key-to-entry mapping. -/
theorem save_index_iteration_order {κ : Type} [DecidableEq κ] (idx : IndexState κ)
    (hnodup : (idx.map Prod.fst).Nodup) :
    (CasIndex.savePairs idx).map Prod.fst = idx.map Prod.fst ∧
      ∀ k, alookup k (CasIndex.loadPairs (CasIndex.savePairs idx)) = alookup k idx := by
  have hsave : CasIndex.savePairs idx = idx := by
    unfold CasIndex.savePairs
    simp
  constructor
  · rw [hsave]
  · intro k
    rw [hsave]
    unfold CasIndex.loadPairs
    rw [loadPairs_fold_lookup idx [] k hnodup]
    cases h : alookup k idx with
    | some v => rfl
    | none => rfl

/-- Witness for C7's amended claim at the two-entry index `idxBA`. -/
theorem save_index_iteration_order_witness :
    (CasIndex.savePairs idxBA).map Prod.fst = idxBA.map Prod.fst ∧
      alookup "aa" (CasIndex.loadPairs (CasIndex.savePairs idxBA)) =
        alookup "aa" idxBA ∧
      alookup "zz" (CasIndex.loadPairs (CasIndex.savePairs idxBA)) =
        alookup "zz" idxBA :=
  ⟨(save_index_iteration_order idxBA (by decide)).1,
    (save_index_iteration_order idxBA (by decide)).2 "aa",
    (save_index_iteration_order idxBA (by decide)).2 "zz"⟩

/-! ### Dependency graph toposort (C9) -/

theorem addDepStep_nodes (g : DependencyGraph)
    (d : PackageId × PackageId × DependencyEdge) :
    (match g.addDependency d.1 d.2.1 d.2.2 with
      | .ok g' => g'
      | .error _ => g).nodes = g.nodes := by
  unfold DependencyGraph.addDependency
  by_cases h1 : d.1 ∈ g.nodes
  · rw [if_pos h1]
    by_cases h2 : d.2.1 ∈ g.nodes
    · rw [if_pos h2]
    · rw [if_neg h2]
  · rw [if_neg h1]

theorem addDepStep_edges (g : DependencyGraph)
    (d : PackageId × PackageId × DependencyEdge) (e : GraphEdge)
    (he : e ∈ (match g.addDependency d.1 d.2.1 d.2.2 with
      | .ok g' => g'
      | .error _ => g).edges) :
    e ∈ g.edges ∨ (e.src ∈ g.nodes ∧ e.tgt ∈ g.nodes) := by
  unfold DependencyGraph.addDependency at he
  by_cases h1 : d.1 ∈ g.nodes
  · rw [if_pos h1] at he
    by_cases h2 : d.2.1 ∈ g.nodes
    · rw [if_pos h2] at he
      dsimp only at he
      rcases List.mem_append.mp he with h | h
      · exact Or.inl h
      · rcases List.mem_singleton.mp h with rfl
        exact Or.inr ⟨h1, h2⟩
    · rw [if_neg h2] at he
      exact Or.inl he
  · rw [if_neg h1] at he
    exact Or.inl he

theorem foldl_addDep_nodes
    (deps : List (PackageId × PackageId × DependencyEdge)) :
    ∀ g : DependencyGraph,
      (deps.foldl
        (fun g d =>
          match g.addDependency d.1 d.2.1 d.2.2 with
          | .ok g' => g'
          | .error _ => g) g).nodes = g.nodes := by
  induction deps with
  | nil => intro g; rfl
  | cons d rest ih =>
      intro g
      rw [List.foldl_cons, ih, addDepStep_nodes]

theorem foldl_addDep_edges
    (deps : List (PackageId × PackageId × DependencyEdge)) :
    ∀ g : DependencyGraph,
      (∀ e ∈ g.edges, e.src ∈ g.nodes ∧ e.tgt ∈ g.nodes) →
      ∀ e ∈ (deps.foldl
        (fun g d =>
          match g.addDependency d.1 d.2.1 d.2.2 with
          | .ok g' => g'
          | .error _ => g) g).edges, e.src ∈ g.nodes ∧ e.tgt ∈ g.nodes := by
  induction deps with
  | nil => intro g h; exact h
  | cons d rest ih =>
      intro g h e he
      rw [List.foldl_cons] at he
      have hinv : ∀ e' ∈ (match g.addDependency d.1 d.2.1 d.2.2 with
          | .ok g' => g'
          | .error _ => g).edges,
          e'.src ∈ (match g.addDependency d.1 d.2.1 d.2.2 with
            | .ok g' => g'
            | .error _ => g).nodes ∧
          e'.tgt ∈ (match g.addDependency d.1 d.2.1 d.2.2 with
            | .ok g' => g'
            | .error _ => g).nodes := by
        intro e' he'
        rw [addDepStep_nodes]
        rcases addDepStep_edges g d e' he' with h0 | h0
        · exact h e' h0
        · exact h0
      have hr := ih _ hinv e he
      rw [addDepStep_nodes] at hr
      exact hr

theorem foldl_addPackage_edges (ids : List PackageId) :
    ∀ g : DependencyGraph,
      (ids.foldl DependencyGraph.addPackage g).edges = g.edges := by
  induction ids with
  | nil => intro g; rfl
  | cons i rest ih =>
      intro g
      rw [List.foldl_cons, ih]
      unfold DependencyGraph.addPackage
      by_cases h : i ∈ g.nodes
      · rw [if_pos h]
      · rw [if_neg h]

theorem foldl_addPackage_nodup (ids : List PackageId) :
    ∀ g : DependencyGraph, g.nodes.Nodup →
      (ids.foldl DependencyGraph.addPackage g).nodes.Nodup := by
  induction ids with
  | nil => intro g h; exact h
  | cons i rest ih =>
      intro g h
      rw [List.foldl_cons]
      apply ih
      unfold DependencyGraph.addPackage
      by_cases hm : i ∈ g.nodes
      · rw [if_pos hm]; exact h
      · rw [if_neg hm]
        dsimp only
        refine List.Nodup.append h (List.nodup_singleton i) ?_
        intro a ha hb
        rcases List.mem_singleton.mp hb with rfl
        exact hm ha

theorem buildGraph_nodes_nodup (ids : List PackageId)
    (deps : List (PackageId × PackageId × DependencyEdge)) :
    (buildGraph ids deps).nodes.Nodup := by
  unfold buildGraph
  rw [foldl_addDep_nodes]
  exact foldl_addPackage_nodup ids DependencyGraph.empty List.nodup_nil

theorem buildGraph_edges_mem (ids : List PackageId)
    (deps : List (PackageId × PackageId × DependencyEdge)) :
    ∀ e ∈ (buildGraph ids deps).edges,
      e.src ∈ (buildGraph ids deps).nodes ∧ e.tgt ∈ (buildGraph ids deps).nodes := by
  unfold buildGraph
  intro e he
  rw [foldl_addDep_nodes]
  refine foldl_addDep_edges deps _ ?_ e he
  intro e' he'
  rw [foldl_addPackage_edges] at he'
  exact absurd he' (List.not_mem_nil _)

theorem noIncoming_spec (edges : List GraphEdge) (remaining : List PackageId)
    (v : PackageId) (h : noIncoming edges remaining v = true) :
    ∀ e ∈ edges, e.tgt = v → e.src ∉ remaining := by
  intro e he h1 h2
  have hb := List.all_eq_true.mp h e he
  simp [h1, h2] at hb

theorem kahnAux_spec (edges : List GraphEdge) :
    ∀ (fuel : Nat) (remaining acc out : List PackageId),
      kahnAux edges fuel remaining acc = some out →
      (acc ++ remaining).Nodup →
      (∀ e ∈ edges, e.src ∈ acc ++ remaining ∧ e.tgt ∈ acc ++ remaining) →
      (∀ e ∈ edges, e.src ∈ remaining → e.tgt ∉ acc) →
      (∀ e ∈ edges, e.tgt ∈ acc →
        e.src ∈ acc ∧ List.indexOf e.src acc < List.indexOf e.tgt acc) →
      out.Perm (acc ++ remaining) ∧
        ∀ e ∈ edges, e.tgt ∈ out →
          e.src ∈ out ∧ List.indexOf e.src out < List.indexOf e.tgt out := by
  intro fuel
  induction fuel with
  | zero =>
      intro remaining acc out hrun hnd hE hH hJ
      simp only [kahnAux] at hrun
      by_cases hre : remaining.isEmpty = true
      · rw [if_pos hre] at hrun
        obtain rfl := Option.some.inj hrun
        obtain rfl : remaining = [] := List.isEmpty_iff.mp hre
        exact ⟨by simp, hJ⟩
      · rw [if_neg hre] at hrun
        exact absurd hrun (by simp)
  | succ fuel ih =>
      intro remaining acc out hrun hnd hE hH hJ
      simp only [kahnAux] at hrun
      by_cases hre : remaining.isEmpty = true
      · rw [if_pos hre] at hrun
        obtain rfl := Option.some.inj hrun
        obtain rfl : remaining = [] := List.isEmpty_iff.mp hre
        exact ⟨by simp, hJ⟩
      · rw [if_neg hre] at hrun
        cases hf : remaining.find? (noIncoming edges remaining) with
        | none =>
            rw [hf] at hrun
            exact absurd hrun (by simp)
        | some v =>
            rw [hf] at hrun
            dsimp only at hrun
            have hvmem : v ∈ remaining := List.mem_of_find?_eq_some hf
            have hvni := noIncoming_spec edges remaining v (List.find?_some hf)
            have hvnacc : v ∉ acc :=
              fun hv => (List.disjoint_of_nodup_append hnd) hv hvmem
            have hperm : ((acc ++ [v]) ++ remaining.erase v).Perm (acc ++ remaining) := by
              rw [List.append_assoc]
              show (acc ++ (v :: remaining.erase v)).Perm (acc ++ remaining)
              exact List.Perm.append_left acc ((List.perm_cons_erase hvmem).symm)
            have hnd' : ((acc ++ [v]) ++ remaining.erase v).Nodup :=
              hperm.nodup_iff.mpr hnd
            have hE' : ∀ e ∈ edges,
                e.src ∈ (acc ++ [v]) ++ remaining.erase v ∧
                e.tgt ∈ (acc ++ [v]) ++ remaining.erase v := by
              intro e he
              obtain ⟨h1, h2⟩ := hE e he
              exact ⟨hperm.mem_iff.mpr h1, hperm.mem_iff.mpr h2⟩
            have hH' : ∀ e ∈ edges, e.src ∈ remaining.erase v → e.tgt ∉ acc ++ [v] := by
              intro e he hsrc htgt
              have hsrcr : e.src ∈ remaining := List.mem_of_mem_erase hsrc
              rcases List.mem_append.mp htgt with ht | ht
              · exact hH e he hsrcr ht
              · rcases List.mem_singleton.mp ht with ht
                exact (hvni e he ht) hsrcr
            have hJ' : ∀ e ∈ edges, e.tgt ∈ acc ++ [v] →
                e.src ∈ acc ++ [v] ∧
                List.indexOf e.src (acc ++ [v]) < List.indexOf e.tgt (acc ++ [v]) := by
              intro e he htgt
              rcases List.mem_append.mp htgt with ht | ht
              · obtain ⟨hs, hidx⟩ := hJ e he ht
                refine ⟨List.mem_append_left _ hs, ?_⟩
                rw [List.indexOf_append_of_mem hs, List.indexOf_append_of_mem ht]
                exact hidx
              · rcases List.mem_singleton.mp ht with ht
                have hsrcnot : e.src ∉ remaining := hvni e he ht
                have hsrcin : e.src ∈ acc := by
                  rcases List.mem_append.mp (hE e he).1 with h | h
                  · exact h
                  · exact absurd h hsrcnot
                refine ⟨List.mem_append_left _ hsrcin, ?_⟩
                rw [List.indexOf_append_of_mem hsrcin, ht,
                  List.indexOf_append_of_not_mem hvnacc]
                have h0 : List.indexOf v [v] = 0 := by simp
                rw [h0, Nat.add_zero]
                exact List.indexOf_lt_length.mpr hsrcin
            obtain ⟨hperm2, hJout⟩ :=
              ih (remaining.erase v) (acc ++ [v]) out hrun hnd' hE' hH' hJ'
            exact ⟨hperm2.trans hperm, hJout⟩

/-- C9: `detect_cycles` reports no cycle exactly when `topological_sort`
succeeds, and a successful sort of a graph built over distinct ids is a
permutation of all nodes, without duplicates, in which every edge's source
precedes its target. -/
theorem graph_cycles_iff_toposort (ids : List PackageId)
    (deps : List (PackageId × PackageId × DependencyEdge)) :
    ((buildGraph ids deps).detectCyclesOk = true ↔
      ((buildGraph ids deps).topologicalSort).isSome = true) ∧
    ∀ out, (buildGraph ids deps).topologicalSort = some out →
      out.Perm (buildGraph ids deps).nodes ∧ out.Nodup ∧
      ∀ e ∈ (buildGraph ids deps).edges,
        List.indexOf e.src out < List.indexOf e.tgt out := by
  refine ⟨Iff.rfl, ?_⟩
  intro out hout
  unfold DependencyGraph.topologicalSort at hout
  have hnd : (([] : List PackageId) ++ (buildGraph ids deps).nodes).Nodup := by
    rw [List.nil_append]
    exact buildGraph_nodes_nodup ids deps
  have hE : ∀ e ∈ (buildGraph ids deps).edges,
      e.src ∈ ([] : List PackageId) ++ (buildGraph ids deps).nodes ∧
      e.tgt ∈ ([] : List PackageId) ++ (buildGraph ids deps).nodes := by
    intro e he
    rw [List.nil_append]
    exact buildGraph_edges_mem ids deps e he
  obtain ⟨hperm, hJout⟩ := kahnAux_spec (buildGraph ids deps).edges
    (buildGraph ids deps).nodes.length (buildGraph ids deps).nodes [] out hout
    hnd hE
    (fun e _ _ h => List.not_mem_nil _ h)
    (fun e _ h => absurd h (List.not_mem_nil _))
  have hperm' : out.Perm (buildGraph ids deps).nodes := by
    rw [List.nil_append] at hperm
    exact hperm
  refine ⟨hperm', hperm'.nodup_iff.mpr (buildGraph_nodes_nodup ids deps), ?_⟩
  intro e he
  have htgt : e.tgt ∈ out := hperm'.mem_iff.mpr (buildGraph_edges_mem ids deps e he).2
  exact (hJout e he htgt).2

/-- Witness for C9 at the three-node chain `a → b → c`. -/
theorem graph_cycles_iff_toposort_witness :
    (buildGraph wGraphIds wGraphDeps).topologicalSort = some [pidA, pidB, pidC] ∧
    ([pidA, pidB, pidC].Perm (buildGraph wGraphIds wGraphDeps).nodes ∧
      [pidA, pidB, pidC].Nodup ∧
      List.indexOf pidA [pidA, pidB, pidC] < List.indexOf pidB [pidA, pidB, pidC]) := by
  have h := (graph_cycles_iff_toposort wGraphIds wGraphDeps).2
    [pidA, pidB, pidC] (by decide)
  refine ⟨by decide, h.1, h.2.1, ?_⟩
  exact h.2.2 ⟨pidA, pidB, normalEdge⟩ (by decide)

end Pea
